import Mathlib

/-!
Verification of the bas-smt versioned sparse Merkle tree.

A shallow embedding of the `bsmt` Go package (files `smt.go`, the tree-node
implementation, and `options.go`).  Byte strings are modelled symbolically:
the hasher is the free pairing constructor, so distinct hash terms model the
collision-free behaviour of the real hash function.  Machine integers
(`uint64`) are modelled as `Nat`; the only place where overflow semantics
matter (`gcStatus.pop`'s unsigned subtraction) performs the wraparound
explicitly.  The key-value store never fails in the model (the reference
in-memory store only fails on "not found", which is modelled by `Option`).
-/

set_option maxRecDepth 20000

namespace BasSmt

/-- Symbolic byte strings: `raw` values are externally supplied opaque bytes
(user values and the configured nil leaf hash), `comb` is the output of the
binary hasher, and `nil` is Go's nil byte slice. -/
inductive Bytes where
  | raw (n : Nat)
  | comb (a b : Bytes)
  | nil
deriving DecidableEq, Repr

/-- `Hasher.Hash(left, right)` from the Go code, modelled as the free pairing
of the two inputs (a collision-free symbolic hash). -/
def hasherHash (a b : Bytes) : Bytes := Bytes.comb a b


/-- The error values of the package (`errors.go` sentinel errors). -/
inductive Err where
  | InvalidDepth
  | InvalidKey
  | EmptyRoot
  | VersionTooOld
  | VersionTooHigh
  | NodeNotFound
  | Unexpected
deriving DecidableEq, Repr

/-- `VersionInfo{Ver, Hash}` from the tree-node implementation. -/
structure VersionInfo where
  Ver : Nat
  Hash : Bytes
deriving DecidableEq, Repr

instance : Inhabited VersionInfo := ⟨⟨0, Bytes.nil⟩⟩

/-- One step of `constructNilHashes`' loop: iterate `x ↦ H(x, x)`. -/
def nilIter : Nat → Bytes → Bytes
  | 0, h => h
  | n + 1, h => nilIter n (hasherHash h h)

/-- `constructNilHashes(maxDepth, nilHash, hasher)`: the table indexed by
depth, with `hashes[maxDepth] = nilHash` and
`hashes[maxDepth-i] = H^i(nilHash)`. -/
def constructNilHashes (maxDepth : Nat) (nilHash : Bytes) : List Bytes :=
  (List.range (maxDepth + 1)).map (fun d => nilIter (maxDepth - d) nilHash)

/-- `nilHashes.Get(depth)`: returns the nil byte slice when `depth` is out of
range, exactly as the Go method does. -/
def nilHashesGet (hashes : List Bytes) (depth : Nat) : Bytes :=
  if hashes.length - 1 < depth then Bytes.nil else hashes.getD depth Bytes.nil

/-- `TreeNode`: 16 child slots, 14 internal hashes, a version history and the
static metadata.  A nested inductive because the children are tree nodes. -/
inductive TreeNode where
  | mk (children : List (Option TreeNode)) (internals : List Bytes)
       (versions : List VersionInfo) (nilHash nilChildHash : Bytes)
       (path : Nat) (depth : Nat) (temporary : Bool)

def TreeNode.children : TreeNode → List (Option TreeNode)
  | .mk c _ _ _ _ _ _ _ => c

def TreeNode.internals : TreeNode → List Bytes
  | .mk _ i _ _ _ _ _ _ => i

def TreeNode.versions : TreeNode → List VersionInfo
  | .mk _ _ v _ _ _ _ _ => v

def TreeNode.nilHash : TreeNode → Bytes
  | .mk _ _ _ n _ _ _ _ => n

def TreeNode.nilChildHash : TreeNode → Bytes
  | .mk _ _ _ _ n _ _ _ => n

def TreeNode.path : TreeNode → Nat
  | .mk _ _ _ _ _ p _ _ => p

def TreeNode.depth : TreeNode → Nat
  | .mk _ _ _ _ _ _ d _ => d

def TreeNode.temporary : TreeNode → Bool
  | .mk _ _ _ _ _ _ _ t => t

/-- Replace the whole child list (Go mutates `node.Children` in place). -/
def TreeNode.withChildren (node : TreeNode) (c : List (Option TreeNode)) : TreeNode :=
  .mk c node.internals node.versions node.nilHash node.nilChildHash
      node.path node.depth node.temporary

/-- Replace one child slot (Go's `node.Children[nibble] = ...`). -/
def TreeNode.withChild (node : TreeNode) (i : Nat) (c : Option TreeNode) : TreeNode :=
  node.withChildren (node.children.set i c)

/-- `NewTreeNode(depth, path, nilHashes, hasher)`: a fresh empty node whose
internals are pre-filled with the nil hashes of the three levels below. -/
def NewTreeNode (depth path : Nat) (nils : List Bytes) : TreeNode :=
  .mk (List.replicate 16 none)
      (List.replicate 2 (nilHashesGet nils (depth + 1)) ++
       List.replicate 4 (nilHashesGet nils (depth + 2)) ++
       List.replicate 8 (nilHashesGet nils (depth + 3)))
      [] (nilHashesGet nils depth) (nilHashesGet nils (depth + 4))
      path depth false

/-- `TreeNode.Root()`: last version entry's hash, or the node's nil hash. -/
def TreeNode.Root (node : TreeNode) : Bytes :=
  match node.versions.getLast? with
  | some vi => vi.Hash
  | none => node.nilHash

/-- `TreeNode.newVersion` acting on the version list: overwrite the last
entry when it already carries the same version, otherwise append. -/
def newVersionL (l : List VersionInfo) (vi : VersionInfo) : List VersionInfo :=
  match l.getLast? with
  | some last => if last.Ver = vi.Ver then l.dropLast ++ [vi] else l ++ [vi]
  | none => l ++ [vi]

/-- `TreeNode.set(hash, version)`: leaf update (copy + newVersion). -/
def TreeNode.set (node : TreeNode) (hash : Bytes) (version : Nat) : TreeNode :=
  match node with
  | .mk c i v nh nch p d t => .mk c i (newVersionL v ⟨version, hash⟩) nh nch p d t

/-- The root hash of an optional child, `nilChildHash` when absent. -/
def childRootOr (nilChild : Bytes) : Option TreeNode → Bytes
  | some c => c.Root
  | none => nilChild

/-- One iteration of the `setChildren` internals-recomputation loop: place
`H(left, right)` at `internals[pre + nib/2]` and read back the next
`(left, right)` pair. -/
def setChildrenStep (pre : Nat) (st : List Bytes × Bytes × Bytes × Nat) :
    List Bytes × Bytes × Bytes × Nat :=
  let i0 := st.1
  let left := st.2.1
  let right := st.2.2.1
  let n := st.2.2.2 / 2
  let i1 := i0.set (pre + n) (hasherHash left right)
  let left1 := if n % 2 = 0 then i1.getD (pre + n) Bytes.nil
               else i1.getD ((pre + n) ^^^ 1) Bytes.nil
  let right1 := if n % 2 = 0 then i1.getD ((pre + n) ^^^ 1) Bytes.nil
                else i1.getD (pre + n) Bytes.nil
  (i1, left1, right1, n)

/-- `TreeNode.setChildren(child, nibble, version)`: replace one child slot,
recompute the three internal hashes on the path from that slot to the node
root (the Go loop with `prefix = 6, 2, 0` unrolled), and record the new root
as a version entry. -/
def TreeNode.setChildren (node : TreeNode) (child : TreeNode) (nibble : Nat)
    (version : Nat) : TreeNode :=
  let c := node.children.set nibble (some child)
  let nch := node.nilChildHash
  let left0 := if nibble % 2 = 0 then childRootOr nch (c.getD nibble none)
               else childRootOr nch (c.getD (nibble ^^^ 1) none)
  let right0 := if nibble % 2 = 0 then childRootOr nch (c.getD (nibble ^^^ 1) none)
                else childRootOr nch (c.getD nibble none)
  let st1 := setChildrenStep 6 (node.internals, left0, right0, nibble)
  let st2 := setChildrenStep 2 st1
  let st3 := setChildrenStep 0 st2
  let i3 := st3.1
  let newRoot := hasherHash (i3.getD 0 Bytes.nil) (i3.getD 1 Bytes.nil)
  .mk c i3 (newVersionL node.versions ⟨version, newRoot⟩)
      node.nilHash nch node.path node.depth node.temporary

/-- `TreeNode.computeInternalHash()`: recompute all 14 internals from the
current child roots, bottom-up. -/
def TreeNode.computeInternalHash (node : TreeNode) : TreeNode :=
  match node with
  | .mk c i0 v nh nch p d t =>
    -- leaf level: internals[6 + i/2] for i = 0, 2, ..., 14
    let bottom := (List.range 8).foldl
      (fun (acc : List Bytes) j =>
        acc.set (6 + j)
          (hasherHash (childRootOr nch (c.getD (2 * j) none))
                      (childRootOr nch (c.getD (2 * j + 1) none))))
      i0
    -- internal level: internals[i/2 - 1] = H(internals[i-1], internals[i])
    -- for i = 13, 11, 9, 7, 5, 3
    let full := [13, 11, 9, 7, 5, 3].foldl
      (fun (acc : List Bytes) j =>
        acc.set (j / 2 - 1) (hasherHash (acc.getD (j - 1) Bytes.nil)
                                        (acc.getD j Bytes.nil)))
      bottom
    .mk c full v nh nch p d t

/-- The index the `Prune` loop stops at: the first index `< len - 1` whose
version is `≥ oldestVersion`, or `len - 1`. -/
def pruneIdx (oldestVersion : Nat) (l : List VersionInfo) : Nat :=
  match l.dropLast.findIdx? (fun e => oldestVersion ≤ e.Ver) with
  | some i => i
  | none => l.length - 1

/-- The effect of `TreeNode.Prune(oldestNat)` on the version list. -/
def pruneVersions (oldestVersion : Nat) (l : List VersionInfo) : List VersionInfo :=
  if l.length ≤ 1 then l
  else
    let i := pruneIdx oldestVersion l
    if 0 < i ∧ oldestVersion < (l.getD i default).Ver then l.drop (i - 1)
    else l.drop i

/-- `TreeNode.release(oldestNat)`: clear the direct child slots whose
last version is strictly below `oldestVersion`. -/
def releaseChildren (oldestVersion : Nat) (c : List (Option TreeNode)) :
    List (Option TreeNode) :=
  c.map (fun slot =>
    match slot with
    | some ch =>
      match ch.versions.getLast? with
      | some last => if last.Ver < oldestVersion then none else some ch
      | none => some ch
    | none => none)

/-- `TreeNode.Prune(oldestNat)`: prune the version list and (via the
deferred `release`) clear stale child slots. -/
def TreeNode.Prune (node : TreeNode) (oldestVersion : Nat) : TreeNode :=
  match node with
  | .mk c i v nh nch p d t =>
    .mk (releaseChildren oldestVersion c) i (pruneVersions oldestVersion v) nh nch p d t

/-- The version-list truncation performed by `TreeNode.Rollback`: drop the
trailing entries with version strictly above the target. -/
def truncateVersions (target : Nat) (l : List VersionInfo) : List VersionInfo :=
  (l.reverse.dropWhile (fun e => target < e.Ver)).reverse

/-- `TreeNode.Rollback(targetNat)`: truncate the version list, recompute
the internals, and report whether any entry was dropped.  A node with an
empty version list is returned untouched. -/
def TreeNode.RollbackNode (node : TreeNode) (target : Nat) : TreeNode × Bool :=
  if node.versions = [] then (node, false)
  else
    let kept := truncateVersions target node.versions
    let node' :=
      match node with
      | .mk c i _ nh nch p d t => TreeNode.mk c i kept nh nch p d t
    (node'.computeInternalHash, kept.length < node.versions.length)

/-- `TreeNode.IsTemporary()`. -/
def TreeNode.IsTemporary (node : TreeNode) : Bool := node.temporary

/-- `StorageTreeNode`: the persistent form of a node (children reduced to
their version lists). -/
structure StorageTreeNode where
  Children : List (Option (List VersionInfo))
  Internals : List Bytes
  Versions : List VersionInfo
deriving DecidableEq, Repr

/-- `TreeNode.ToStorageTreeNode()`. -/
def TreeNode.ToStorageTreeNode (node : TreeNode) : StorageTreeNode :=
  ⟨node.children.map (fun slot => slot.map TreeNode.versions),
   node.internals, node.versions⟩

/-- `StorageTreeNode.ToTreeNode(depth, path, nilHashes, hasher)`: decode a
persistent record; present child slots become temporary placeholder nodes
that carry only their version list (Go leaves the placeholders' `internals`,
`path` and `depth` at their zero values). -/
def StorageTreeNode.ToTreeNode (st : StorageTreeNode) (depth path : Nat)
    (nils : List Bytes) : TreeNode :=
  .mk (st.Children.map (fun slot =>
        slot.map (fun vs =>
          TreeNode.mk (List.replicate 16 none) (List.replicate 14 Bytes.nil) vs
            (nilHashesGet nils (depth + 4)) (nilHashesGet nils (depth + 8))
            0 0 true)))
      st.Internals st.Versions
      (nilHashesGet nils depth) (nilHashesGet nils (depth + 4))
      path depth false

/-- `gcStatus`: the 10-slot residency ring. -/
structure GCStat where
  versions : List Nat
  sizes : List Nat
  threshold : Nat
  segment : Nat
deriving Repr

/-- `gcStatus.add(version, size)`. -/
def GCStat.add (stat : GCStat) (version : Nat) (size : Nat) : GCStat :=
  if version = 0 ∨ size = 0 then stat
  else
    let index := min (size / stat.segment) 9
    { stat with sizes := stat.sizes.set index size,
                versions := stat.versions.set index version }

/-- `gcStatus.clean(index)`. -/
def GCStat.clean (stat : GCStat) (index : Nat) : GCStat :=
  { stat with
    sizes := (List.range 10).map (fun i => if i ≤ index then 0 else stat.sizes.getD i 0),
    versions := (List.range 10).map
      (fun i => if i ≤ index then 0 else stat.versions.getD i 0) }

/-- `uint64` subtraction with wraparound, for `currentSize - stat.sizes[i]`. -/
def wrapSub (a b : Nat) : Nat := (a + 2 ^ 64 - b % 2 ^ 64) % 2 ^ 64

/-- The scan loop of `gcStatus.pop`: find the first slot whose release drops
the current size below the threshold (the fuel argument counts the ten
iterations, so the recursion is structural). -/
def GCStat.popScan (stat : GCStat) (currentSize : Nat) :
    Nat → Nat → Nat × GCStat
  | 0, _ => (0, stat)
  | fuel + 1, i =>
    if wrapSub currentSize (stat.sizes.getD i 0) < stat.threshold then
      (stat.versions.getD i 0, stat.clean i)
    else stat.popScan currentSize fuel (i + 1)

/-- `gcStatus.pop(currentSize)`: pick the version to release, if any.  The
running `maximal` of the Go loop is only consulted when the scan found no
slot, i.e. when the loop ran to completion, so it is computed by a separate
full pass here. -/
def GCStat.pop (stat : GCStat) (currentSize : Nat) : Nat × GCStat :=
  if currentSize < stat.threshold then (0, stat)
  else
    let scanned := stat.popScan currentSize 10 0
    if 0 < scanned.1 then scanned
    else
      let maximal := (List.range 10).foldl
        (fun acc i => if 0 < stat.sizes.getD i 0 then stat.versions.getD i 0 else acc) 0
      (maximal, stat.clean 9)

/-- The journal: a finite map `(depth, path) → *TreeNode` modelled as an
association list with unique keys. -/
abbrev Journal := List ((Nat × Nat) × TreeNode)

/-- Insertion into the journal map: overwrite the entry with the same
`(depth, path)` key, or append. -/
def journalInsert (j : Journal) (e : (Nat × Nat) × TreeNode) : Journal :=
  if j.any (fun e' => e'.1 = e.1) then
    j.map (fun e' => if e'.1 = e.1 then e else e')
  else j ++ [e]

/-- The node records of the key-value store: a map from `(depth, path)` (the
`t:<depth>:<path>` keys) to decoded `StorageTreeNode` records.  The two
metadata keys are kept as separate fields of `SMT`. -/
abbrev DBNodes := Nat × Nat → Option StorageTreeNode

def dbSet (db : DBNodes) (k : Nat × Nat) (v : StorageTreeNode) : DBNodes :=
  fun k' => if k' = k then some v else db k'

/-- `BASSparseMerkleTree`: the in-memory tree state plus the backing store.
`batchSizeLimit` only controls when sub-batches are flushed in Go, which has
no observable effect on the final store contents, so it is not modelled. -/
structure SMT where
  version : Nat
  recentVersion : Nat
  root : TreeNode
  lastSaveRoot : Option TreeNode
  journal : Journal
  maxDepth : Nat
  nils : List Bytes
  dbNodes : DBNodes
  dbLatest : Option Nat
  dbRecent : Option Nat
  gcStatus : GCStat

/-- A placeholder for the state Go reaches after dereferencing a nil
`lastSaveRoot` pointer (a crash); unreachable in the verified scenarios. -/
def crashedNode : TreeNode := TreeNode.mk [] [] [] Bytes.nil Bytes.nil 0 0 false

/-- `extendNode(node, nibble, path, depth)`: materialise the child at `nibble`
from the store when it is absent or a temporary placeholder.  A missing
record yields a fresh empty node. -/
def extendNode (db : DBNodes) (nils : List Bytes) (node : TreeNode)
    (nibble path depth : Nat) : TreeNode :=
  match node.children.getD nibble none with
  | some child =>
    if child.IsTemporary then
      match db (depth, path) with
      | none => node.withChild nibble (some (NewTreeNode depth path nils))
      | some st => node.withChild nibble (some (st.ToTreeNode depth path nils))
    else node
  | none =>
    match db (depth, path) with
    | none => node.withChild nibble (some (NewTreeNode depth path nils))
    | some st => node.withChild nibble (some (st.ToTreeNode depth path nils))

/-- The recursion of `Set`'s two loops: descend `rem` more packed-node
levels (extending children from the store), set the leaf, then rebuild the
path with `setChildren`, collecting the copy-on-write clones for the journal
(leaf first, then each parent bottom-up, as the Go code registers them). -/
def setRec (db : DBNodes) (nils : List Bytes) (maxDepth key newVer : Nat)
    (val : Bytes) : Nat → Nat → TreeNode → TreeNode × Journal
  | 0, _, node =>
    let leaf := node.set val newVer
    (leaf, [((leaf.depth, leaf.path), leaf)])
  | rem + 1, i, node =>
    let depth := (i + 1) * 4
    let path := key >>> (maxDepth - (i + 1) * 4)
    let nibble := path % 16
    let node1 := extendNode db nils node nibble path depth
    let child := (node1.children.getD nibble none).getD (NewTreeNode depth path nils)
    let sub := setRec db nils maxDepth key newVer val rem (i + 1) child
    let node' := node1.setChildren sub.1 nibble newVer
    (node', sub.2 ++ [((node'.depth, node'.path), node')])

/-- `BASSparseMerkleTree.Set(key, val)`. -/
def SMT.Set (tree : SMT) (key : Nat) (val : Bytes) : Except Err SMT :=
  if 2 ^ tree.maxDepth ≤ key then .error .InvalidKey
  else
    let newVersion := tree.version + 1
    let sub :=
      setRec tree.dbNodes tree.nils tree.maxDepth key newVersion val
        (tree.maxDepth / 4) 0 tree.root
    .ok { tree with root := sub.1, journal := sub.2.foldl journalInsert tree.journal }

/-- `BASSparseMerkleTree.IsEmpty()`. -/
def SMT.IsEmpty (tree : SMT) : Bool :=
  tree.root.Root = nilHashesGet tree.nils 0

/-- `BASSparseMerkleTree.Root()`. -/
def SMT.RootHash (tree : SMT) : Bytes := tree.root.Root

/-- `BASSparseMerkleTree.LatestVersion()`. -/
def SMT.LatestVersion (tree : SMT) : Nat := tree.version

/-- `BASSparseMerkleTree.Get(key, version)`: read the leaf's persistent
record at `(maxDepth, key)` and return the hash of the last version entry
`≤ version`, the depth-`maxDepth` nil hash when no entry qualifies, or
`ErrNodeNotFound` when the record is absent. -/
def SMT.Get (tree : SMT) (key : Nat) (version : Option Nat) : Except Err Bytes :=
  if tree.IsEmpty then .error .EmptyRoot
  else if 2 ^ tree.maxDepth ≤ key then .error .InvalidKey
  else
    let v := version.getD tree.version
    if v < tree.recentVersion then .error .VersionTooOld
    else if tree.version < v then .error .VersionTooHigh
    else
      match tree.dbNodes (tree.maxDepth, key) with
      | none => .error .NodeNotFound
      | some st =>
        match st.Versions.reverse.find? (fun e => e.Ver ≤ v) with
        | some e => .ok e.Hash
        | none => .ok (nilHashesGet tree.nils tree.maxDepth)

/-- The loop of `GetProof`: at each level emit the cross-level sibling
carried over from the previous level (skipped at the root) and the three
internal siblings of the current packed node, then descend; after the last
level emit the final cross-level sibling and the target leaf's root.
Returns the emissions in root-to-leaf order together with the extended
tree. -/
def getProofRec (db : DBNodes) (nils : List Bytes) (maxDepth key : Nat) :
    Nat → Nat → TreeNode → Option TreeNode → List Bytes × TreeNode
  | 0, _, node, neighbor =>
    ([(match neighbor with
       | none => nilHashesGet nils maxDepth
       | some nb => nb.Root), node.Root], node)
  | rem + 1, i, node, neighbor =>
    let depth := (i + 1) * 4
    let path := key >>> (maxDepth - (i + 1) * 4)
    let nibble := path % 16
    let node1 := extendNode db nils node nibble path depth
    let crossLevel : List Bytes :=
      if i = 0 then []
      else [match neighbor with
            | none => nilHashesGet nils (depth - 4)
            | some nb => nb.Root]
    let step1 := node1.internals.getD ((0 + nibble / 8) ^^^ 1) Bytes.nil
    let step2 := node1.internals.getD ((2 + nibble / 4) ^^^ 1) Bytes.nil
    let step3 := node1.internals.getD ((6 + nibble / 2) ^^^ 1) Bytes.nil
    let child := (node1.children.getD nibble none).getD (NewTreeNode depth path nils)
    let neighbor' := node1.children.getD (nibble ^^^ 1) none
    let sub := getProofRec db nils maxDepth key rem (i + 1) child neighbor'
    (crossLevel ++ [step1, step2, step3] ++ sub.1,
     node1.withChild nibble (some sub.2))

/-- `BASSparseMerkleTree.GetProof(key)`: the proof (leaf first, reversed from
emission order) together with the tree whose placeholder children were
extended during the walk. -/
def SMT.GetProof (tree : SMT) (key : Nat) : Except Err (List Bytes × SMT) :=
  if tree.IsEmpty then
    .ok (nilHashesGet tree.nils tree.maxDepth ::
         ((List.range tree.maxDepth).map
           (fun j => nilHashesGet tree.nils (tree.maxDepth - j))), tree)
  else if 2 ^ tree.maxDepth ≤ key then .error .InvalidKey
  else
    let sub :=
      getProofRec tree.dbNodes tree.nils tree.maxDepth key
        (tree.maxDepth / 4) 0 tree.root none
    .ok (sub.1.reverse, { tree with root := sub.2 })

/-- The helper-bit vector of `VerifyProof`, in emission (root-to-leaf)
order: per level the inter-level bit `path/16 % 2` (skipped at the root)
followed by `nibble/8 % 2`, `nibble/4 % 2`, `nibble/2 % 2`; then the final
leaf bit `key % 2`. -/
def verifyHelpers (maxDepth key : Nat) : Nat → Nat → List Nat
  | 0, _ => [key % 2]
  | rem + 1, i =>
    let path := key >>> (maxDepth - (i + 1) * 4)
    let nibble := path % 16
    (if i = 0 then [] else [path / 16 % 2]) ++
      [nibble / 8 % 2, nibble / 4 % 2, nibble / 2 % 2] ++
      verifyHelpers maxDepth key rem (i + 1)

/-- `BASSparseMerkleTree.VerifyProof(key, proof)`: rebuild the root from the
leaf using the helper bits and compare with the current root. -/
def SMT.VerifyProof (tree : SMT) (key : Nat) (proof : List Bytes) : Bool :=
  if 2 ^ tree.maxDepth ≤ key then false
  else
    let helpers := (verifyHelpers tree.maxDepth key (tree.maxDepth / 4) 0).reverse
    if proof.length ≠ helpers.length + 1 then false
    else
      match proof with
      | [] => false
      | leaf :: rest =>
        let result := (helpers.zip rest).foldl
          (fun (acc : Option Bytes) (hp : Nat × Bytes) =>
            match acc with
            | none => none
            | some node =>
              if hp.1 = 0 then some (hasherHash node hp.2)
              else if hp.1 = 1 then some (hasherHash hp.2 node)
              else none)
          (some leaf)
        match result with
        | some node => node = tree.RootHash
        | none => false

/-- In-memory effect of the commit loop's `fullNode.Prune(*recentVersion)`:
the journaled nodes alias the live tree, so pruning them prunes the tree
node sitting at each journaled `(depth, path)`.  `fuel` bounds the recursion
depth; callers pass `maxDepth + 1`, at least the height of any tree the
engine builds. -/
def pruneTreeAt (keys : List (Nat × Nat)) (floor : Nat) :
    Nat → TreeNode → TreeNode
  | 0, node => node
  | fuel + 1, node =>
    let node1 := if keys.contains (node.depth, node.path) then node.Prune floor else node
    node1.withChildren (node1.children.map
      (fun slot => slot.map (pruneTreeAt keys floor fuel)))

/-- Modelled from the spec: the two-result `TreeNode.size(recentVersion)`
that `smt.go` calls is not in the sources (the tree-node file in the
repository snapshot carries an older no-argument `size`).  Per §4.F the
first result is the resident byte estimate (32 bytes per internal hash and
per version entry, as the older `size` computes) and the second the bytes
belonging to versions strictly below `recent_version`. -/
def sizePair (recent : Nat) : Nat → TreeNode → Nat × Nat
  | 0, _ => (0, 0)
  | fuel + 1, node =>
    let own := 32 * node.internals.length + 32 * node.versions.length
    let ownReleasable := 32 * (node.versions.countP (fun e => e.Ver < recent))
    node.children.foldl
      (fun acc slot =>
        match slot with
        | none => acc
        | some ch =>
          let (t, r) := sizePair recent fuel ch
          let whole :=
            match ch.versions.getLast? with
            | some last => if last.Ver < recent then t else r
            | none => r
          (acc.1 + t, acc.2 + whole))
      (own, ownReleasable)

/-- Modelled from the spec: the byte count returned by
`TreeNode.release(releaseNat)` as called from `Commit` (the released
subtrees' byte estimate); the child-clearing behaviour itself is the
`releaseChildren` of the tree-node source. -/
def releaseRoot (releaseVersion : Nat) (fuel : Nat) (node : TreeNode) :
    TreeNode × Nat :=
  let released := node.children.foldl
    (fun acc slot =>
      match slot with
      | some ch =>
        match ch.versions.getLast? with
        | some last =>
          if last.Ver < releaseVersion then acc + (sizePair 0 fuel ch).1 else acc
        | none => acc
      | none => acc)
    0
  (node.withChildren (releaseChildren releaseVersion node.children), released)

/-- Commit's per-node write action (`writeNode` without the batch-flush
bookkeeping, which does not affect the final store contents): prune the
node when a retention floor is supplied, then store its persistent record
under the node's own `(depth, path)` key. -/
def writeAction (rv : Option Nat) (db : DBNodes) (e : (Nat × Nat) × TreeNode) :
    DBNodes :=
  let node := match rv with
              | some f => e.2.Prune f
              | none => e.2
  dbSet db (node.depth, node.path) node.ToStorageTreeNode

/-- `BASSparseMerkleTree.Commit(recentVersion)`.  Returns the Go pair
`(Version, error)` as `Except Err Version`, together with the post-call
state (unchanged when the call fails). -/
def SMT.Commit (tree : SMT) (recentVersion : Option Nat) :
    Except Err Nat × SMT :=
  let newVersion := tree.version + 1
  let floorTooHigh : Bool :=
    match recentVersion with
    | some rv => decide (newVersion ≤ rv)
    | none => false
  if floorTooHigh then
    (.error .VersionTooHigh, tree)
  else
    -- write every journaled node (pruned when a floor is supplied) plus the
    -- two metadata keys in one batch
    let written := tree.journal.foldl (writeAction recentVersion) tree.dbNodes
    -- the journaled nodes alias the live tree: pruning them prunes the tree
    let root1 := match recentVersion with
                 | some rv => pruneTreeAt (tree.journal.map (·.1)) rv
                               (tree.maxDepth + 1) tree.root
                 | none => tree.root
    let recent' := recentVersion.getD tree.recentVersion
    let sz := sizePair recent' (tree.maxDepth + 1) root1
    let popped := tree.gcStatus.pop sz.1
    let rel :=
      if 0 < popped.1 then releaseRoot popped.1 (tree.maxDepth + 1) root1
      else (root1, 0)
    let gc2 := popped.2.add recent' (wrapSub sz.2 rel.2)
    (.ok newVersion,
     { tree with
       version := newVersion
       recentVersion := recent'
       root := rel.1
       lastSaveRoot := some rel.1
       journal := []
       dbNodes := written
       dbLatest := some newVersion
       dbRecent := match recentVersion with
                   | some rv => some rv
                   | none => tree.dbRecent
       gcStatus := gc2 })

/-- `BASSparseMerkleTree.Reset()`. -/
def SMT.Reset (tree : SMT) : SMT :=
  { tree with journal := [], root := tree.lastSaveRoot.getD crashedNode }

/-- `BASSparseMerkleTree.rollback(child, oldVersion, db)`: truncate the
node's version history; when entries were dropped, persist the truncated
node and recurse into the children.  Returns the updated node and the
records written.  `fuel` bounds the recursion depth; callers pass
`maxDepth + 1`, at least the height of any tree the engine builds. -/
def rollbackRec (oldVersion : Nat) :
    Nat → Option TreeNode → Option TreeNode × List ((Nat × Nat) × StorageTreeNode)
  | _, none => (none, [])
  | 0, some node => (some node, [])
  | fuel + 1, some node =>
    let rb := node.RollbackNode oldVersion
    let node' := rb.1
    if rb.2 then
      let write := ((node'.depth, node'.path), node'.ToStorageTreeNode)
      let folded := node'.children.foldl
        (fun (acc : List (Option TreeNode) × List ((Nat × Nat) × StorageTreeNode)) slot =>
          let sub := rollbackRec oldVersion fuel slot
          (acc.1 ++ [sub.1], acc.2 ++ sub.2))
        ([], [write])
      (some (node'.withChildren folded.1), folded.2)
    else (some node', [])

/-- `BASSparseMerkleTree.Rollback(version)`.  On success the truncated root
is shared between `root` and `lastSaveRoot` (in Go, `Reset` makes them the
same pointer and the rollback mutates it in place). -/
def SMT.Rollback (tree : SMT) (version : Nat) : Except Err Unit × SMT :=
  if tree.IsEmpty then (.error .EmptyRoot, tree)
  else if version < tree.recentVersion then (.error .VersionTooOld, tree)
  else if tree.version < version then (.error .VersionTooHigh, tree)
  else
    let t1 := tree.Reset
    let rb := rollbackRec version (tree.maxDepth + 1) (some t1.root)
    let written := rb.2.foldl (fun (db : DBNodes) w => dbSet db w.1 w.2) t1.dbNodes
    let newRoot := rb.1.getD crashedNode
    (.ok (),
     { t1 with
       version := version
       root := newRoot
       lastSaveRoot := some newRoot
       dbNodes := written
       dbLatest := some version })

/-- `NewBASSparseMerkleTree(hasher, nil-db, maxDepth, nilHash, opts...)` for
the fresh-tree path (a nil store is replaced by an empty in-memory store).
`threshold` stands for the configured or defaulted `gcStatus.threshold`. -/
def newSMT (maxDepth : Nat) (nilHash : Bytes) (threshold : Nat) : Except Err SMT :=
  if maxDepth = 0 ∨ maxDepth % 4 ≠ 0 then .error .InvalidDepth
  else
    let nils := constructNilHashes maxDepth nilHash
    .ok { version := 0
          recentVersion := 0
          root := NewTreeNode 0 0 nils
          lastSaveRoot := none
          journal := []
          maxDepth := maxDepth
          nils := nils
          dbNodes := fun _ => none
          dbLatest := none
          dbRecent := none
          gcStatus := { versions := List.replicate 10 0, sizes := List.replicate 10 0,
                        threshold := threshold, segment := threshold / 10 } }

/-- The mutating public operations, for describing call sequences. -/
inductive Op where
  | set (key : Nat) (val : Bytes)
  | commit (recentVersion : Option Nat)
deriving Repr

/-- Run one operation; a failing operation leaves the tree unchanged,
exactly as the Go methods return before mutating on their error paths. -/
def runOp (tree : SMT) : Op → SMT
  | .set key val => ((tree.Set key val).toOption).getD tree
  | .commit rv => (tree.Commit rv).2

def runOps (tree : SMT) (ops : List Op) : SMT := ops.foldl runOp tree

deriving instance DecidableEq for Except

/-- `newSMT` with the construction error discharged (used only at valid
depths, where `newSMT` succeeds). -/
def newSMTD (maxDepth : Nat) (nilHash : Bytes) (threshold : Nat) : SMT :=
  match newSMT maxDepth nilHash threshold with
  | .ok s => s
  | .error _ => { version := 0, recentVersion := 0, root := crashedNode,
                  lastSaveRoot := none, journal := [], maxDepth := 0, nils := [],
                  dbNodes := fun _ => none, dbLatest := none, dbRecent := none,
                  gcStatus := ⟨[], [], 0, 0⟩ }

/-! ## Concrete scenarios

Depth-8 trees over the symbolic hasher; `Bytes.raw 0` plays the role of the
configured nil leaf hash and `Bytes.raw 1, 2, ...` the stored values.  The
gc threshold is set far above the scenario sizes, as the library's default
(an eighth of system memory) is in practice. -/

/-- Depth-8 tree after `set(0,a); commit(nil); set(1,b); commit(nil);
set(2,c); commit(&2)`: the final commit prunes with retention floor 2 and
thereby releases leaf `(8,0)` (its last version 1 is below the floor). -/
def c1Tree : SMT :=
  runOps (newSMTD 8 (.raw 0) (2 ^ 61))
    [.set 0 (.raw 1), .commit none, .set 1 (.raw 2), .commit none,
     .set 2 (.raw 3), .commit (some 2)]

/-- Whether the proof for key 1 verifies on `c1Tree`.  A `GetProof` error
would make this `true`, so proving it `false` shows both that `GetProof`
succeeded and that verification failed. -/
def c1Check : Bool :=
  match c1Tree.GetProof 1 with
  | .ok (p, t) => t.VerifyProof 1 p
  | .error _ => true

/-- Depth-8 tree after `set(0, a); commit(nil); set(0, b); commit(nil)`:
two commits overwriting key 0, so a rollback to version 1 truncates version
lists everywhere. -/
def c5Base : SMT :=
  runOps (newSMTD 8 (.raw 0) (2 ^ 61))
    [.set 0 (.raw 1), .commit none, .set 0 (.raw 2), .commit none]

def c5Once : SMT := (c5Base.Rollback 1).2

def c5Twice : SMT := (c5Once.Rollback 1).2

/-- Fresh depth-8 tree with the nil leaf hash itself stored at key 0 and
committed: the resulting root is the depth-0 nil hash, so the tree reads as
empty afterwards. -/
def c2Bad : SMT :=
  runOps (newSMTD 8 (.raw 0) (2 ^ 61)) [.set 0 (.raw 0), .commit none]

/-- The spec's single-set scenario: fresh depth-8 tree, `set(0, H("test1"))`
(the opaque value `raw 1`), one commit. -/
def c7Tree : SMT :=
  runOps (newSMTD 8 (.raw 0) (2 ^ 61)) [.set 0 (.raw 1), .commit none]

/-! ## Claim theorems -/

/-- Strictly increasing version lists (spec invariant I2). -/
def strictVers (l : List VersionInfo) : Prop :=
  l.Pairwise (fun a b => a.Ver < b.Ver)

/-- The claim's description of the prune rule: `i` is the smallest index
whose version is at least the floor. -/
def isSmallestGE (floor : Nat) (l : List VersionInfo) (i : Nat) : Prop :=
  i < l.length ∧ floor ≤ (l.getD i default).Ver ∧
    ∀ j < i, (l.getD j default).Ver < floor

/-- The spec's "hash of the most recent version entry `≤ version`": the last
entry (in oldest-first order) whose version does not exceed `v`. -/
def mostRecentLE (v : Nat) (l : List VersionInfo) : Option VersionInfo :=
  (l.filter (fun e => e.Ver ≤ v)).getLast?

/-! ## Reachability and structural well-formedness (for claim C2)

`Set` journals each copy-on-write clone under the clone's own
`(depth, path)` fields and `Get` reads the store at `(maxDepth, key)`, so
relating the two requires that every non-temporary resident node sits at
its structural position (spec invariant I5).  `PosOK d p n` states this for
the subtree rooted at position `(d, p)`; it also records that every child
list has the full 16 slots, which all constructors of the code maintain. -/
inductive PosOK : Nat → Nat → TreeNode → Prop where
  | intro (d p : Nat) (n : TreeNode)
      (hlen : n.children.length = 16)
      (hpos : n.temporary = false → n.depth = d ∧ n.path = p)
      (hch : ∀ i c, n.children.getD i none = some c → PosOK (d + 4) (p * 16 + i) c) :
      PosOK d p n

/-- Well-formedness of the node records in the store. -/
def DbWF (db : DBNodes) : Prop :=
  ∀ k st, db k = some st → st.Children.length = 16

/-- Well-formedness of the journal: every entry is keyed by its node's own
position and carries a full child list, and keys are unique. -/
def JournalWF (j : Journal) : Prop :=
  (∀ e ∈ j, e.1 = (e.2.depth, e.2.path) ∧ e.2.children.length = 16) ∧
  (j.map (fun e => e.1)).Nodup

/-- The invariant of states reachable through `Set` and `Commit`. -/
def WF (s : SMT) : Prop :=
  s.recentVersion ≤ s.version ∧
  s.maxDepth % 4 = 0 ∧ 0 < s.maxDepth ∧
  s.root.temporary = false ∧
  PosOK 0 0 s.root ∧
  JournalWF s.journal ∧
  DbWF s.dbNodes

/-- Lookup in the journal map. -/
def journalFind (j : Journal) (k : Nat × Nat) : Option TreeNode :=
  (j.find? (fun e => e.1 = k)).map (fun e => e.2)

/-- A state is reachable when it arises from a successful `NewBASSparseMerkleTree`
followed by any sequence of `Set` and `Commit` calls. -/
def Reached (s : SMT) : Prop :=
  ∃ (D thr : Nat) (nh : Bytes) (s0 : SMT) (ops : List Op),
    newSMT D nh thr = .ok s0 ∧ s = runOps s0 ops

/-- The version list used to exercise the prune rule: floor 2 lands on
index 1 with an exact version match. -/
def c4List : List VersionInfo :=
  [⟨1, Bytes.raw 1⟩, ⟨2, Bytes.raw 2⟩, ⟨3, Bytes.raw 3⟩]

/-- C1.  The claim states that `VerifyProof(k, GetProof(k))` succeeds for
every valid key immediately after every commit.  The code violates it: after
`set(0,a); commit(nil); set(1,b); commit(nil); set(2,c); commit(&2)` the
final commit's prune releases leaf `(8,0)` from memory (its last version 1
is below the retention floor 2), and `GetProof(1)` then emits the depth-8
nil hash in place of leaf 0's root while the tree root still commits to
leaf 0's value, so verification fails.  This theorem evaluates the code at
that failing input. -/
theorem c1_code_bug_eval : c1Check = false := by decide

/-- C2 counterexample.  The claim quantifies over every value `v`; for
`v` equal to the configured nil leaf hash (here `raw 0`) on a fresh tree,
`set(0, v); commit()` produces the all-nil root, `IsEmpty` becomes true, and
`get(0, 1)` fails with `ErrEmptyRoot` instead of returning `v`. -/
theorem c2_counterexample :
    c2Bad.version = 1 ∧ c2Bad.Get 0 (some 1) = .error .EmptyRoot := by decide

/-- C5 counterexample.  Both rollbacks succeed, yet the states differ:
`TreeNode.Rollback` recomputes a node's internals from its children *before*
the recursion truncates those children, so the first `Rollback(1)` leaves
the root's internals computed from pre-rollback child roots; the second
`Rollback(1)` recomputes them from the now-truncated children, changing the
root node.  Hence `rollback(v); rollback(v)` does not equal `rollback(v)`. -/
theorem c5_counterexample :
    (c5Base.Rollback 1).1 = .ok () ∧ (c5Once.Rollback 1).1 = .ok () ∧
    c5Twice.root.internals ≠ c5Once.root.internals :=
  ⟨by decide, by decide, by decide⟩

/-- C6 counterexample.  On a committed tree, reading a valid key whose leaf
record is absent from the store returns `ErrNodeNotFound`; the claim's
"absent record yields the depth-D nil hash" is wrong (the nil hash is
returned only when the record exists but has no entry `≤ version`). -/
theorem c6_counterexample :
    c7Tree.IsEmpty = false ∧ c7Tree.Get 1 (some 1) = .error .NodeNotFound := by
  decide

/-- C7 counterexample.  In the single-set scenario the commit returns
version 1 and `get(0,1)` is the stored value, but `get(0,0)` does **not**
return `ErrEmptyRoot`: the version checks pass (`recentVersion = 0 ≤ 0`)
and the leaf record has no entry `≤ 0`, so the depth-8 nil hash is returned
with no error. -/
theorem c7_counterexample :
    c7Tree.version = 1 ∧ c7Tree.Get 0 (some 1) = .ok (.raw 1) ∧
    c7Tree.Get 0 (some 0) ≠ .error .EmptyRoot :=
  ⟨by decide, by decide, by decide⟩

/-- C7 amended: in the single-set scenario `get(0,1)` returns the stored
value, `get(0,0)` returns the depth-8 nil hash (no error), and
`ErrEmptyRoot` is what a `get(0,0)` issued *before* the first commit
returns. -/
theorem c7_amended_scenario :
    c7Tree.Get 0 (some 1) = .ok (.raw 1) ∧
    c7Tree.Get 0 (some 0) = .ok (.raw 0) ∧
    (newSMTD 8 (.raw 0) (2 ^ 61)).Get 0 (some 0) = .error .EmptyRoot :=
  ⟨by decide, by decide, by decide⟩

/-- C3.  `Commit(floor)` returns `ErrVersionTooHigh` exactly when
`floor ≥ current + 1` (equality included), leaving the whole state — in
particular the version — unchanged; when `floor < current + 1` it succeeds,
advances the version to `current + 1`, clears the journal, and snapshots
the (possibly gc-released) root for `Reset`. -/
theorem c3_commit_floor (s : SMT) (floor : Nat) :
    (s.version + 1 ≤ floor → s.Commit (some floor) = (.error .VersionTooHigh, s)) ∧
    (floor < s.version + 1 →
      (s.Commit (some floor)).1 = .ok (s.version + 1) ∧
      (s.Commit (some floor)).2.version = s.version + 1 ∧
      (s.Commit (some floor)).2.journal = [] ∧
      (s.Commit (some floor)).2.lastSaveRoot = some (s.Commit (some floor)).2.root) := by
  constructor
  · intro h
    simp [SMT.Commit, h]
  · intro h
    have h' : ¬ (s.version + 1 ≤ floor) := not_le.mpr h
    simp [SMT.Commit, h']

/-- C3 witness: on the single-set scenario tree (current version 1),
`Commit(&9)` fails with `ErrVersionTooHigh` without touching the state and
`Commit(&1)` succeeds with the claimed effects. -/
theorem c3_commit_floor_witness :
    (c7Tree.Commit (some 9) = (.error .VersionTooHigh, c7Tree)) ∧
    ((c7Tree.Commit (some 1)).1 = .ok (c7Tree.version + 1) ∧
     (c7Tree.Commit (some 1)).2.version = c7Tree.version + 1 ∧
     (c7Tree.Commit (some 1)).2.journal = [] ∧
     (c7Tree.Commit (some 1)).2.lastSaveRoot = some (c7Tree.Commit (some 1)).2.root) :=
  ⟨(c3_commit_floor c7Tree 9).1 (by decide), (c3_commit_floor c7Tree 1).2 (by decide)⟩

/-- C10.  On an empty tree (`IsEmpty`, i.e. before any committed or pending
content), `GetProof` succeeds for *every* key — the `ErrInvalidKey` check
sits after the empty-tree branch — returning the nil-hash column, and `Get`
returns `ErrEmptyRoot` for every key and requested version, never
`ErrInvalidKey`. -/
theorem c10_empty_tree_bypass (s : SMT) (key : Nat) (v : Option Nat)
    (h : s.IsEmpty = true) :
    s.GetProof key =
      .ok (nilHashesGet s.nils s.maxDepth ::
        (List.range s.maxDepth).map (fun j => nilHashesGet s.nils (s.maxDepth - j)), s) ∧
    s.Get key v = .error .EmptyRoot := by
  constructor
  · simp [SMT.GetProof, h]
  · simp [SMT.Get, h]

/-- C10 witness: the fresh depth-8 tree is empty, and both behaviours hold
at the invalid key `300 ≥ 2^8`. -/
theorem c10_empty_tree_bypass_witness :
    (newSMTD 8 (.raw 0) (2 ^ 61)).IsEmpty = true ∧
    ((newSMTD 8 (.raw 0) (2 ^ 61)).GetProof 300 =
      .ok (nilHashesGet (newSMTD 8 (.raw 0) (2 ^ 61)).nils 8 ::
        (List.range 8).map (fun j => nilHashesGet (newSMTD 8 (.raw 0) (2 ^ 61)).nils (8 - j)),
        newSMTD 8 (.raw 0) (2 ^ 61)) ∧
     (newSMTD 8 (.raw 0) (2 ^ 61)).Get 300 none = .error .EmptyRoot) :=
  ⟨by decide, c10_empty_tree_bypass (newSMTD 8 (.raw 0) (2 ^ 61)) 300 none (by decide)⟩


theorem findIdx?_eq_some_of {α : Type} [Inhabited α] (p : α → Bool) :
    ∀ (xs : List α) (i k : Nat), i < xs.length → p (xs.getD i default) = true →
      (∀ j < i, p (xs.getD j default) = false) →
      xs.findIdx? p k = some (k + i)
  | [], i, _, hi, _, _ => absurd hi (by simp)
  | a :: t, 0, k, _, hp, _ => by
      simp only [List.getD_cons_zero] at hp
      simp [List.findIdx?_cons, hp]
  | a :: t, i + 1, k, hi, hp, hlt => by
      have ha : p a = false := by
        have := hlt 0 (Nat.succ_pos i)
        simpa using this
      rw [List.findIdx?_cons, ha]
      simp only [Bool.false_eq_true, if_false]
      have := findIdx?_eq_some_of p t i (k + 1) (by simpa using hi)
        (by simpa using hp) (fun j hj => by simpa using hlt (j + 1) (by omega))
      rw [this]
      congr 1
      omega

theorem pruneIdx_eq {floor : Nat} {l : List VersionInfo} {i : Nat}
    (h : isSmallestGE floor l i) : pruneIdx floor l = i := by
  obtain ⟨hi, hp, hlt⟩ := h
  unfold pruneIdx
  by_cases hcase : i < l.length - 1
  · have hfind : l.dropLast.findIdx? (fun e => decide (floor ≤ e.Ver)) = some (0 + i) := by
      apply findIdx?_eq_some_of
      · simpa [List.length_dropLast]
      · have : l.dropLast.getD i default = l.getD i default := by
          have h1 : i < l.dropLast.length := by simpa [List.length_dropLast]
          rw [List.getD_eq_getElem _ _ h1, List.getElem_dropLast,
              List.getD_eq_getElem _ _ hi]
        rw [this]; simpa using hp
      · intro j hj
        have h1 : j < l.dropLast.length := by simp [List.length_dropLast]; omega
        have : l.dropLast.getD j default = l.getD j default := by
          rw [List.getD_eq_getElem _ _ h1, List.getElem_dropLast,
              List.getD_eq_getElem _ _ (by omega)]
        rw [this]; simpa using hlt j hj
    simp [hfind]
  · have hieq : i = l.length - 1 := by omega
    have hnone : l.dropLast.findIdx? (fun e => decide (floor ≤ e.Ver)) = none := by
      rw [List.findIdx?_eq_none_iff]
      intro x hx
      obtain ⟨n, hn, hxn⟩ := List.mem_iff_getElem.mp hx
      have hn' : n < l.length - 1 := by simpa [List.length_dropLast] using hn
      have hv : (l.getD n default).Ver < floor := hlt n (by omega)
      rw [List.getD_eq_getElem _ _ (by omega)] at hv
      rw [← List.getElem_dropLast _ n hn, hxn] at hv
      simp only [decide_eq_false_iff_not, not_le]
      exact hv
    simp [hnone, hieq]


theorem smallestGE_exists {floor : Nat} {l : List VersionInfo}
    (h : ∃ j, j < l.length ∧ floor ≤ (l.getD j default).Ver) :
    ∃ i, isSmallestGE floor l i := by
  classical
  refine ⟨Nat.find h, (Nat.find_spec h).1, (Nat.find_spec h).2, ?_⟩
  intro j hj
  have hmin := Nat.find_min h hj
  push_neg at hmin
  have hjlen : j < l.length := lt_trans hj (Nat.find_spec h).1
  exact hmin hjlen

theorem c4_prune_rule (floor : Nat) (l : List VersionInfo) :
    (∀ i, isSmallestGE floor l i →
      pruneVersions floor l =
        if 0 < i ∧ floor < (l.getD i default).Ver then l.drop (i - 1) else l.drop i) ∧
    (strictVers l →
      (pruneVersions floor l).countP (fun e => decide (e.Ver < floor)) ≤ 1) := by
  constructor
  · intro i h
    by_cases hlen : l.length ≤ 1
    · have hi0 : i = 0 := by have := h.1; omega
      subst hi0
      simp [pruneVersions, hlen]
    · rw [pruneVersions, if_neg hlen, pruneIdx_eq h]
  · intro hs
    by_cases hlen : l.length ≤ 1
    · calc (pruneVersions floor l).countP _ ≤ (pruneVersions floor l).length :=
            List.countP_le_length _
        _ ≤ 1 := by simp [pruneVersions, hlen]
    · by_cases hex : ∃ j, j < l.length ∧ floor ≤ (l.getD j default).Ver
      · obtain ⟨i, hsm⟩ := smallestGE_exists hex
        have heq := pruneIdx_eq hsm
        have hge : ∀ a ∈ l.drop i, floor ≤ a.Ver := by
          intro a ha
          obtain ⟨m, hm, hma⟩ := List.mem_drop_iff_getElem.mp ha
          rcases Nat.eq_zero_or_pos m with hm0 | hmpos
          · subst hm0
            have h2 := hsm.2.1
            rw [List.getD_eq_getElem _ _ hsm.1] at h2
            rw [← hma]
            simpa using h2
          · have hlt : (l.getD i default).Ver < l[i + m].Ver := by
              have hp := List.pairwise_iff_getElem.mp hs i (i + m) hsm.1 (by omega) (by omega)
              rw [List.getD_eq_getElem _ _ hsm.1]
              exact hp
            have h3 := hsm.2.1
            rw [hma] at hlt
            omega
        rw [pruneVersions, if_neg hlen, heq]
        by_cases hc : 0 < i ∧ floor < (l.getD i default).Ver
        · rw [if_pos hc]
          have hi1 : i - 1 < l.length := by have := hsm.1; omega
          rw [List.drop_eq_getElem_cons hi1, List.countP_cons]
          have hz : (l.drop (i - 1 + 1)).countP (fun e => decide (e.Ver < floor)) = 0 := by
            rw [List.countP_eq_zero]
            intro a ha
            have : i - 1 + 1 = i := by omega
            rw [this] at ha
            have := hge a ha
            simp only [decide_eq_true_eq, not_lt]
            omega
          rw [hz]
          split <;> omega
        · rw [if_neg hc]
          have hz : (l.drop i).countP (fun e => decide (e.Ver < floor)) = 0 := by
            rw [List.countP_eq_zero]
            intro a ha
            have := hge a ha
            simp only [decide_eq_true_eq, not_lt]
            omega
          omega
      · -- no entry reaches the floor: the kept suffix is the single last entry
        push_neg at hex
        have hnone : l.dropLast.findIdx? (fun e => decide (floor ≤ e.Ver)) = none := by
          rw [List.findIdx?_eq_none_iff]
          intro x hx
          obtain ⟨n, hn, hxn⟩ := List.mem_iff_getElem.mp hx
          have hn' : n < l.length - 1 := by simpa [List.length_dropLast] using hn
          have hv := hex n (by omega)
          rw [List.getD_eq_getElem _ _ (by omega)] at hv
          rw [← List.getElem_dropLast _ n hn, hxn] at hv
          simp only [decide_eq_false_iff_not, not_le]
          exact hv
        rw [pruneVersions, if_neg hlen]
        have hidx : pruneIdx floor l = l.length - 1 := by simp [pruneIdx, hnone]
        rw [hidx]
        have hbound : ∀ (m : List VersionInfo), m.length ≤ 1 →
            m.countP (fun e => decide (e.Ver < floor)) ≤ 1 := fun m hm =>
          (List.countP_le_length _).trans hm
        have hc : ¬ (0 < l.length - 1 ∧ floor < (l.getD (l.length - 1) default).Ver) := by
          rintro ⟨-, h2⟩
          have := hex (l.length - 1) (by omega)
          omega
        simp only [if_neg hc]
        exact hbound _ (by rw [List.length_drop]; omega)


theorem c8_newVersion_sorted (l : List VersionInfo) (vi : VersionInfo)
    (hs : strictVers l) (hle : ∀ e ∈ l, e.Ver ≤ vi.Ver) :
    strictVers (newVersionL l vi) ∧
    (∀ last, l.getLast? = some last → last.Ver = vi.Ver →
      newVersionL l vi = l.dropLast ++ [vi] ∧ (newVersionL l vi).length = l.length) := by
  constructor
  · unfold strictVers newVersionL
    cases h : l.getLast? with
    | none =>
      have h0 : l = [] := List.getLast?_eq_none_iff.mp h
      subst h0
      simp [strictVers]
    | some last =>
      have hne : l ≠ [] := by
        intro h0; subst h0; simp at h
      have hlast : l.getLast hne = last := by
        rw [List.getLast?_eq_getLast _ hne] at h
        exact Option.some_injective _ h
      have hsplit : l.dropLast ++ [last] = l := by
        rw [← hlast]; exact List.dropLast_append_getLast hne
      have hdrop : strictVers l.dropLast :=
        List.Pairwise.sublist (List.dropLast_sublist l) hs
      have hlt_last : ∀ a ∈ l.dropLast, a.Ver < last.Ver := by
        have := hsplit ▸ hs
        have hp := (List.pairwise_append.mp this).2.2
        intro a ha
        exact hp a ha last (by simp)
      by_cases hv : last.Ver = vi.Ver
      · simp only [hv, eq_self_iff_true, if_true]
        rw [List.pairwise_append]
        refine ⟨hdrop, by simp [strictVers], ?_⟩
        intro a ha b hb
        simp only [List.mem_singleton] at hb
        subst hb
        have := hlt_last a ha
        omega
      · simp only [if_neg hv]
        rw [List.pairwise_append]
        refine ⟨hs, by simp [strictVers], ?_⟩
        intro a ha b hb
        simp only [List.mem_singleton] at hb
        subst hb
        have hmem : a ∈ l.dropLast ∨ a ∈ [last] := by
          rw [← List.mem_append, hsplit]; exact ha
        have hale := hle a ha
        rcases hmem with hd | hl
        · have := hlt_last a hd
          have hlastle := hle last (by rw [← hsplit]; simp)
          omega
        · simp only [List.mem_singleton] at hl
          subst hl
          omega
  · intro last h hv
    have hne : l ≠ [] := by
      intro h0; subst h0; simp at h
    unfold newVersionL
    rw [h]
    simp only [hv, eq_self_iff_true, if_true]
    refine ⟨trivial, ?_⟩
    rw [List.length_append, List.length_dropLast]
    have : 0 < l.length := List.length_pos.mpr hne
    simp
    omega

theorem getProofRec_length_pos (db : DBNodes) (nils : List Bytes) (maxDepth key : Nat) :
    ∀ rem i node nb, 0 < i →
      (getProofRec db nils maxDepth key rem i node nb).1.length = 4 * rem + 2 := by
  intro rem
  induction rem with
  | zero => intro i node nb _; simp [getProofRec]
  | succ n ih =>
    intro i node nb hi
    have hne : ¬ i = 0 := by omega
    simp only [getProofRec, hne, if_false, List.length_append, List.length_cons,
      List.length_nil, ih (i + 1) _ _ (by omega)]
    omega

theorem getProofRec_length_zero (db : DBNodes) (nils : List Bytes) (maxDepth key : Nat)
    (rem : Nat) (node : TreeNode) (nb : Option TreeNode) (hrem : 0 < rem) :
    (getProofRec db nils maxDepth key rem 0 node nb).1.length = 4 * rem + 1 := by
  cases rem with
  | zero => omega
  | succ n =>
    simp only [getProofRec, eq_self_iff_true, if_true, List.length_append,
      List.length_cons, List.length_nil,
      getProofRec_length_pos db nils maxDepth key n 1 _ _ (by omega)]
    omega

/-- C9.  For every valid key, `GetProof` succeeds and the proof has exactly
`maxDepth + 1` entries, on empty trees and trees with commits alike. -/
theorem c9_proof_length (s : SMT) (key : Nat) (hd4 : s.maxDepth % 4 = 0)
    (hdpos : 0 < s.maxDepth) (hk : key < 2 ^ s.maxDepth) :
    ∃ p t, s.GetProof key = .ok (p, t) ∧ p.length = s.maxDepth + 1 := by
  by_cases he : s.IsEmpty
  · refine ⟨nilHashesGet s.nils s.maxDepth ::
      (List.range s.maxDepth).map (fun j => nilHashesGet s.nils (s.maxDepth - j)),
      s, ?_, ?_⟩
    · simp [SMT.GetProof, he]
    · simp
  · have hk' : ¬ (2 ^ s.maxDepth ≤ key) := not_le.mpr hk
    refine ⟨(getProofRec s.dbNodes s.nils s.maxDepth key (s.maxDepth / 4) 0
        s.root none).1.reverse,
      { s with root := (getProofRec s.dbNodes s.nils s.maxDepth key
          (s.maxDepth / 4) 0 s.root none).2 }, ?_, ?_⟩
    · simp [SMT.GetProof, he, hk']
    · have hq : 0 < s.maxDepth / 4 := Nat.div_pos (by omega) (by omega)
      rw [List.length_reverse,
        getProofRec_length_zero s.dbNodes s.nils s.maxDepth key (s.maxDepth / 4)
          s.root none hq]
      omega

theorem find?_reverse_filter {α : Type} (p : α → Bool) (l : List α) :
    l.reverse.find? p = (l.filter p).getLast? := by
  induction l with
  | nil => rfl
  | cons a t ih =>
    rw [List.reverse_cons, List.find?_append, ih, List.filter_cons]
    by_cases hp : p a
    · rw [if_pos hp,
        show (a :: List.filter p t) = [a] ++ List.filter p t from rfl,
        List.getLast?_append]
      simp [hp]
    · rw [if_neg hp]
      have h3 : List.find? p [a] = none := by simp [List.find?_cons, hp]
      rw [h3, Option.or_none]

/-- C6 amended.  On a non-empty tree, for a valid key and an in-window
version, `Get` reads the leaf record at `(maxDepth, key)` and returns the
hash of the most recent version entry `≤ v`, or the depth-`maxDepth` nil
hash when the record has no such entry; an *absent* record produces
`ErrNodeNotFound` (not the nil hash, as the claim stated). -/
theorem c6_amended_get (s : SMT) (key v : Nat)
    (hne : s.IsEmpty = false) (hk : key < 2 ^ s.maxDepth)
    (h1 : s.recentVersion ≤ v) (h2 : v ≤ s.version) :
    s.Get key (some v) =
      match s.dbNodes (s.maxDepth, key) with
      | none => .error .NodeNotFound
      | some st =>
        match mostRecentLE v st.Versions with
        | some e => .ok e.Hash
        | none => .ok (nilHashesGet s.nils s.maxDepth) := by
  unfold SMT.Get
  rw [hne]
  have hk' : ¬ (2 ^ s.maxDepth ≤ key) := not_le.mpr hk
  have hold : ¬ (v < s.recentVersion) := by omega
  have hhigh : ¬ (s.version < v) := by omega
  simp only [Bool.false_eq_true, if_false, hk', Option.getD, hold, hhigh]
  cases hdb : s.dbNodes (s.maxDepth, key) with
  | none => rfl
  | some st =>
    simp only [find?_reverse_filter, mostRecentLE]

theorem dropWhile_idem {α : Type} (p : α → Bool) (l : List α) :
    (l.dropWhile p).dropWhile p = l.dropWhile p := by
  induction l with
  | nil => rfl
  | cons a t ih =>
    by_cases hp : p a
    · simp [List.dropWhile_cons, hp, ih]
    · simp [List.dropWhile_cons, hp]

theorem truncateVersions_idem (v : Nat) (l : List VersionInfo) :
    truncateVersions v (truncateVersions v l) = truncateVersions v l := by
  unfold truncateVersions
  rw [List.reverse_reverse, dropWhile_idem]

theorem computeInternalHash_versions (n : TreeNode) :
    n.computeInternalHash.versions = n.versions := by
  cases n; rfl

theorem computeInternalHash_nilHash (n : TreeNode) :
    n.computeInternalHash.nilHash = n.nilHash := by
  cases n; rfl

theorem computeInternalHash_Root (n : TreeNode) :
    n.computeInternalHash.Root = n.Root := by
  unfold TreeNode.Root
  rw [computeInternalHash_versions, computeInternalHash_nilHash]

theorem withChildren_versions (n : TreeNode) (c : List (Option TreeNode)) :
    (n.withChildren c).versions = n.versions := by
  cases n; rfl

/-- The node returned by `TreeNode.Rollback` carries the truncated version
list (or the untouched empty list). -/
theorem RollbackNode_fst_versions (n : TreeNode) (v : Nat) :
    ((n.RollbackNode v).1).versions =
      if n.versions = [] then n.versions else truncateVersions v n.versions := by
  unfold TreeNode.RollbackNode
  by_cases h0 : n.versions = []
  · simp [h0]
  · simp only [h0, if_false]
    cases n
    rw [computeInternalHash_versions]
    rfl

/-- When the version list is already a fixed point of the truncation,
`TreeNode.Rollback` only recomputes the internals and reports no change. -/
theorem RollbackNode_of_fixed (n : TreeNode) (v : Nat)
    (hfix : truncateVersions v n.versions = n.versions) :
    n.RollbackNode v =
      (if n.versions = [] then n else n.computeInternalHash, false) := by
  unfold TreeNode.RollbackNode
  by_cases h0 : n.versions = []
  · simp [h0]
  · simp only [h0, if_false]
    cases n with
    | mk c i ver nh nch p d t =>
      simp only [TreeNode.versions] at hfix h0 ⊢
      simp only [hfix]
      simp

/-- The root node produced by the engine-level rollback walk has a
truncation-fixed version list. -/
theorem rollbackRec_versions_fixed (v f : Nat) (n : TreeNode) :
    ∃ n', (rollbackRec v (f + 1) (some n)).1 = some n' ∧
      truncateVersions v n'.versions = n'.versions := by
  have hv : ((n.RollbackNode v).1).versions =
      if n.versions = [] then n.versions else truncateVersions v n.versions :=
    RollbackNode_fst_versions n v
  have hfixed : truncateVersions v (((n.RollbackNode v).1).versions) =
      ((n.RollbackNode v).1).versions := by
    rw [hv]
    by_cases h0 : n.versions = []
    · rw [if_pos h0, h0]; rfl
    · rw [if_neg h0, truncateVersions_idem]
  unfold rollbackRec
  by_cases h2 : (n.RollbackNode v).2
  · simp only [h2, if_true]
    exact ⟨_, rfl, by rw [withChildren_versions]; exact hfixed⟩
  · simp only [h2, Bool.false_eq_true, if_false]
    exact ⟨_, rfl, hfixed⟩

/-- Re-running the walk on a truncation-fixed root only recomputes the
root's internals and writes nothing. -/
theorem rollbackRec_of_fixed (v f : Nat) (n : TreeNode)
    (hfix : truncateVersions v n.versions = n.versions) :
    rollbackRec v (f + 1) (some n) =
      (some (if n.versions = [] then n else n.computeInternalHash), []) := by
  unfold rollbackRec
  rw [RollbackNode_of_fixed n v hfix]
  simp

/-- Requesting a version above the latest on a non-empty tree fails with
`ErrVersionTooHigh`. -/
theorem get_version_too_high (t : SMT) (key v' : Nat) (hie : t.IsEmpty = false)
    (hk : key < 2 ^ t.maxDepth) (hrec : t.recentVersion ≤ t.version)
    (hv : t.version < v') :
    t.Get key (some v') = .error .VersionTooHigh := by
  unfold SMT.Get
  rw [hie]
  have hk' : ¬ (2 ^ t.maxDepth ≤ key) := not_le.mpr hk
  have hold : ¬ (v' < t.recentVersion) := by omega
  simp [hk', hold, Option.getD, hv]

/-- `Rollback` on an empty tree fails before touching anything. -/
theorem rollback_empty (t : SMT) (v : Nat) (h : t.IsEmpty = true) :
    t.Rollback v = (.error .EmptyRoot, t) := by
  unfold SMT.Rollback
  rw [h]
  simp

/-- A `Rollback(v)` whose root version list is already truncation-fixed (as
it is right after a successful `Rollback(v)`) succeeds, keeps the version,
store, journal, root versions and root hash, and at most recomputes the
root's internal hashes. -/
theorem rollback_second (t : SMT) (v : Nat) (hie : t.IsEmpty = false)
    (hc1 : ¬ (v < t.recentVersion)) (hc2 : ¬ (t.version < v))
    (hlsr : t.lastSaveRoot = some t.root)
    (hfix : truncateVersions v t.root.versions = t.root.versions) :
    (t.Rollback v).2.version = v ∧
    (t.Rollback v).2.dbNodes = t.dbNodes ∧
    (t.Rollback v).2.dbLatest = some v ∧
    (t.Rollback v).2.journal = [] ∧
    (t.Rollback v).2.root.versions = t.root.versions ∧
    (t.Rollback v).2.RootHash = t.RootHash ∧
    ((t.Rollback v).2.root = t.root ∨
     (t.Rollback v).2.root = t.root.computeInternalHash) := by
  have hrb : rollbackRec v (t.maxDepth + 1) (some t.root) =
      (some (if t.root.versions = [] then t.root else t.root.computeInternalHash),
       []) :=
    rollbackRec_of_fixed v t.maxDepth t.root hfix
  have h_root : (t.Rollback v).2.root =
      (if t.root.versions = [] then t.root else t.root.computeInternalHash) := by
    simp [SMT.Rollback, hie, hc1, hc2, SMT.Reset, hlsr, hrb]
  refine ⟨?_, ?_, ?_, ?_, ?_, ?_, ?_⟩
  · simp [SMT.Rollback, hie, hc1, hc2]
  · simp [SMT.Rollback, hie, hc1, hc2, SMT.Reset, hlsr, hrb]
  · simp [SMT.Rollback, hie, hc1, hc2]
  · simp [SMT.Rollback, hie, hc1, hc2, SMT.Reset]
  · rw [h_root]
    by_cases h0 : t.root.versions = []
    · rw [if_pos h0]
    · rw [if_neg h0]
      exact computeInternalHash_versions _
  · unfold SMT.RootHash
    rw [h_root]
    by_cases h0 : t.root.versions = []
    · rw [if_pos h0]
    · rw [if_neg h0]
      exact computeInternalHash_Root _
  · rw [h_root]
    by_cases h0 : t.root.versions = []
    · rw [if_pos h0]; exact Or.inl rfl
    · rw [if_neg h0]; exact Or.inr rfl

/-- C5 amended.  A `Rollback(v)` with `recent ≤ v ≤ latest` on a non-empty
tree succeeds and sets `LatestVersion` to `v`; afterwards `Get(k, v')` with
a valid key and `v' > v` fails with `ErrVersionTooHigh` provided the tree
is still non-empty; and a second `Rollback(v)` changes nothing except that
the root node's internal hashes are recomputed (`TreeNode.Rollback` calls
`computeInternalHash` even when no version entry is dropped): the version,
the store, the journal, the root's version list and the root hash are all
unchanged. -/
theorem c5_amended_rollback (s : SMT) (v : Nat)
    (hne : s.IsEmpty = false) (h1 : s.recentVersion ≤ v) (h2 : v ≤ s.version) :
    (s.Rollback v).1 = .ok () ∧
    (s.Rollback v).2.version = v ∧
    (∀ key v', key < 2 ^ (s.Rollback v).2.maxDepth → v < v' →
      (s.Rollback v).2.IsEmpty = false →
      (s.Rollback v).2.Get key (some v') = .error .VersionTooHigh) ∧
    (((s.Rollback v).2.Rollback v).2.version = (s.Rollback v).2.version ∧
     ((s.Rollback v).2.Rollback v).2.dbNodes = (s.Rollback v).2.dbNodes ∧
     ((s.Rollback v).2.Rollback v).2.dbLatest = (s.Rollback v).2.dbLatest ∧
     ((s.Rollback v).2.Rollback v).2.journal = (s.Rollback v).2.journal ∧
     ((s.Rollback v).2.Rollback v).2.root.versions = (s.Rollback v).2.root.versions ∧
     ((s.Rollback v).2.Rollback v).2.RootHash = (s.Rollback v).2.RootHash ∧
     (((s.Rollback v).2.Rollback v).2.root = (s.Rollback v).2.root ∨
      ((s.Rollback v).2.Rollback v).2.root = (s.Rollback v).2.root.computeInternalHash)) := by
  have hc1 : ¬ (v < s.recentVersion) := not_lt.mpr h1
  have hc2 : ¬ (s.version < v) := not_lt.mpr h2
  have hv1 : (s.Rollback v).1 = .ok () := by
    simp [SMT.Rollback, hne, hc1, hc2]
  have hver : (s.Rollback v).2.version = v := by
    simp [SMT.Rollback, hne, hc1, hc2]
  have hrecv : (s.Rollback v).2.recentVersion = s.recentVersion := by
    simp [SMT.Rollback, hne, hc1, hc2, SMT.Reset]
  have hroot : (s.Rollback v).2.root =
      (rollbackRec v (s.maxDepth + 1) (some (s.Reset).root)).1.getD crashedNode := by
    simp [SMT.Rollback, hne, hc1, hc2]
  have hlsr : (s.Rollback v).2.lastSaveRoot = some ((s.Rollback v).2.root) := by
    rw [hroot]
    simp [SMT.Rollback, hne, hc1, hc2]
  have hjour : (s.Rollback v).2.journal = [] := by
    simp [SMT.Rollback, hne, hc1, hc2, SMT.Reset]
  have hdbl : (s.Rollback v).2.dbLatest = some v := by
    simp [SMT.Rollback, hne, hc1, hc2]
  obtain ⟨n', hn', hnfix⟩ := rollbackRec_versions_fixed v s.maxDepth (s.Reset).root
  have hrootfix : truncateVersions v ((s.Rollback v).2.root.versions) =
      (s.Rollback v).2.root.versions := by
    rw [hroot, hn']
    exact hnfix
  refine ⟨hv1, hver, ?_, ?_⟩
  · intro key v' hk hv' hie
    exact get_version_too_high _ key v' hie hk
      (by rw [hrecv, hver]; exact h1) (by rw [hver]; exact hv')
  · by_cases hie : (s.Rollback v).2.IsEmpty
    · rw [rollback_empty _ v hie]
      exact ⟨rfl, rfl, rfl, rfl, rfl, rfl, Or.inl rfl⟩
    · have hie' : (s.Rollback v).2.IsEmpty = false := by simpa using hie
      have hsec := rollback_second ((s.Rollback v).2) v hie'
        (by rw [hrecv]; exact hc1) (by rw [hver]; exact lt_irrefl v) hlsr hrootfix
      exact ⟨by rw [hsec.1, hver], hsec.2.1, by rw [hsec.2.2.1, hdbl],
        by rw [hsec.2.2.2.1, hjour], hsec.2.2.2.2.1, hsec.2.2.2.2.2.1,
        hsec.2.2.2.2.2.2⟩

theorem PosOK.length {d p : Nat} {n : TreeNode} (h : PosOK d p n) :
    n.children.length = 16 := by
  cases h with | intro _ _ _ hlen _ _ => exact hlen

theorem PosOK.position {d p : Nat} {n : TreeNode} (h : PosOK d p n)
    (ht : n.temporary = false) : n.depth = d ∧ n.path = p := by
  cases h with | intro _ _ _ _ hpos _ => exact hpos ht

theorem PosOK.child {d p : Nat} {n : TreeNode} (h : PosOK d p n)
    {i : Nat} {c : TreeNode} (hc : n.children.getD i none = some c) :
    PosOK (d + 4) (p * 16 + i) c := by
  cases h with | intro _ _ _ _ _ hch => exact hch i c hc

theorem getD_replicate_none (n i : Nat) :
    (List.replicate n (none : Option TreeNode)).getD i none = none := by
  rw [List.getD_eq_getElem?_getD, List.getElem?_replicate]
  split <;> rfl

theorem posOK_NewTreeNode (d p : Nat) (nils : List Bytes) :
    PosOK d p (NewTreeNode d p nils) := by
  refine PosOK.intro d p _ (by simp [NewTreeNode, TreeNode.children]) ?_ ?_
  · intro _
    exact ⟨rfl, rfl⟩
  · intro i c hc
    rw [show (NewTreeNode d p nils).children = List.replicate 16 none from rfl,
      getD_replicate_none] at hc
    cases hc

theorem posOK_ToTreeNode (st : StorageTreeNode) (d p : Nat) (nils : List Bytes)
    (hlen : st.Children.length = 16) :
    PosOK d p (st.ToTreeNode d p nils) := by
  refine PosOK.intro d p _ ?_ (fun _ => ⟨rfl, rfl⟩) ?_
  · simp [StorageTreeNode.ToTreeNode, TreeNode.children, hlen]
  · intro i c hc
    simp only [StorageTreeNode.ToTreeNode, TreeNode.children] at hc
    rw [List.getD_eq_getElem?_getD, List.getElem?_map] at hc
    cases hslot : st.Children[i]? with
    | none => rw [hslot] at hc; cases hc
    | some slot =>
      rw [hslot] at hc
      cases slot with
      | none => cases hc
      | some vs =>
        simp only [Option.map_some', Option.getD_some, Option.some_inj] at hc
        subst hc
        refine PosOK.intro _ _ _ (by simp [TreeNode.children]) ?_ ?_
        · intro ht
          simp [TreeNode.temporary] at ht
        · intro j c' hc'
          rw [show (TreeNode.mk (List.replicate 16 none) (List.replicate 14 Bytes.nil)
              vs (nilHashesGet nils (d + 4)) (nilHashesGet nils (d + 8))
              0 0 true).children = List.replicate 16 none from rfl,
            getD_replicate_none] at hc'
          cases hc'

/-- Transfer of `PosOK` to a node with the same children and metadata. -/
theorem posOK_congr {d p : Nat} {n m : TreeNode} (hn : PosOK d p n)
    (hch : m.children = n.children) (ht : m.temporary = n.temporary)
    (hd : m.temporary = false → m.depth = n.depth ∧ m.path = n.path) :
    PosOK d p m := by
  refine PosOK.intro d p m (by rw [hch]; exact hn.length) ?_ ?_
  · intro hmt
    obtain ⟨h1, h2⟩ := hd hmt
    have := hn.position (by rw [← ht]; exact hmt)
    exact ⟨by rw [h1, this.1], by rw [h2, this.2]⟩
  · intro i c hc
    rw [hch] at hc
    exact hn.child hc

/-- Transfer of `PosOK` across a single-slot child replacement. -/
theorem posOK_setSlot {d p : Nat} {n m : TreeNode} (hn : PosOK d p n)
    {nib : Nat} {c' : TreeNode}
    (hch : m.children = n.children.set nib (some c'))
    (ht : m.temporary = n.temporary)
    (hd : m.temporary = false → m.depth = n.depth ∧ m.path = n.path)
    (hc' : PosOK (d + 4) (p * 16 + nib) c') :
    PosOK d p m := by
  refine PosOK.intro d p m ?_ ?_ ?_
  · rw [hch, List.length_set]
    exact hn.length
  · intro hmt
    obtain ⟨h1, h2⟩ := hd hmt
    have := hn.position (by rw [← ht]; exact hmt)
    exact ⟨by rw [h1, this.1], by rw [h2, this.2]⟩
  · intro j c hc
    rw [hch, List.getD_eq_getElem?_getD, List.getElem?_set] at hc
    by_cases hj : nib = j
    · subst hj
      rw [if_pos rfl] at hc
      by_cases hlt : nib < n.children.length
      · rw [if_pos hlt] at hc
        simp only [Option.getD_some, Option.some_inj] at hc
        rw [← hc]
        exact hc'
      · rw [if_neg hlt] at hc
        cases hc
    · rw [if_neg hj] at hc
      rw [← List.getD_eq_getElem?_getD] at hc
      exact hn.child hc

/-- Replacing a child slot keeps the slot's own lookup. -/
theorem getD_set_self {l : List (Option TreeNode)} {nib : Nat} {c : Option TreeNode}
    (h : nib < l.length) : (l.set nib c).getD nib none = c := by
  rw [List.getD_eq_getElem?_getD, List.getElem?_set, if_pos rfl, if_pos h]
  rfl

/-- The nibble-by-nibble path decomposition: consuming four more key bits
appends the next nibble to the path prefix. -/
theorem path_step (key D i : Nat) (h : 4 * (i + 1) ≤ D) :
    (key >>> (D - 4 * i)) * 16 + (key >>> (D - 4 * (i + 1))) % 16 =
      key >>> (D - 4 * (i + 1)) := by
  have hm : D - 4 * i = (D - 4 * (i + 1)) + 4 := by omega
  rw [hm, Nat.shiftRight_eq_div_pow, Nat.shiftRight_eq_div_pow, pow_add,
    ← Nat.div_div_eq_div_mul]
  have := Nat.div_add_mod (key / 2 ^ (D - 4 * (i + 1))) 16
  have h16 : (2 : Nat) ^ 4 = 16 := by norm_num
  rw [h16]
  omega

/-- What `extendNode` guarantees: the node keeps its identity and position,
and the requested child slot is materialised with the right position. -/
theorem extendNode_spec (db : DBNodes) (nils : List Bytes) (node : TreeNode)
    (nibble path depth d p : Nat) (hdb : DbWF db) (hn : PosOK d p node)
    (ht : node.temporary = false) (hnib : nibble < 16)
    (hpath : p * 16 + nibble = path) (hdep : depth = d + 4) :
    (extendNode db nils node nibble path depth).temporary = false ∧
    (extendNode db nils node nibble path depth).depth = node.depth ∧
    (extendNode db nils node nibble path depth).path = node.path ∧
    PosOK d p (extendNode db nils node nibble path depth) ∧
    ∃ c, (extendNode db nils node nibble path depth).children.getD nibble none = some c ∧
      c.temporary = false ∧ c.depth = depth ∧ c.path = path ∧ PosOK (d + 4) path c := by
  have hlen : node.children.length = 16 := hn.length
  have hflen : nibble < node.children.length := by rw [hlen]; exact hnib
  have hfresh : ∀ st, db (depth, path) = some st →
      (node.withChild nibble (some (st.ToTreeNode depth path nils))).temporary = false ∧
      (node.withChild nibble (some (st.ToTreeNode depth path nils))).depth = node.depth ∧
      (node.withChild nibble (some (st.ToTreeNode depth path nils))).path = node.path ∧
      PosOK d p (node.withChild nibble (some (st.ToTreeNode depth path nils))) ∧
      ∃ c, (node.withChild nibble
          (some (st.ToTreeNode depth path nils))).children.getD nibble none = some c ∧
        c.temporary = false ∧ c.depth = depth ∧ c.path = path ∧ PosOK (d + 4) path c := by
    intro st hst
    have hPos : PosOK (d + 4) path (st.ToTreeNode depth path nils) := by
      rw [hdep]
      exact posOK_ToTreeNode st (d + 4) path nils (hdb _ _ hst)
    have hcheq : (node.withChild nibble (some (st.ToTreeNode depth path nils))).children =
        node.children.set nibble (some (st.ToTreeNode depth path nils)) := by
      cases node; rfl
    refine ⟨by cases node; exact ht, by cases node; rfl, by cases node; rfl, ?_, ?_⟩
    · exact posOK_setSlot hn hcheq (by cases node; rfl)
        (fun _ => ⟨by cases node; rfl, by cases node; rfl⟩)
        (by rw [hpath]; exact hPos)
    · refine ⟨st.ToTreeNode depth path nils, ?_, rfl, rfl, rfl, hPos⟩
      rw [hcheq, getD_set_self hflen]
  have hnew :
      (node.withChild nibble (some (NewTreeNode depth path nils))).temporary = false ∧
      (node.withChild nibble (some (NewTreeNode depth path nils))).depth = node.depth ∧
      (node.withChild nibble (some (NewTreeNode depth path nils))).path = node.path ∧
      PosOK d p (node.withChild nibble (some (NewTreeNode depth path nils))) ∧
      ∃ c, (node.withChild nibble
          (some (NewTreeNode depth path nils))).children.getD nibble none = some c ∧
        c.temporary = false ∧ c.depth = depth ∧ c.path = path ∧ PosOK (d + 4) path c := by
    have hPos : PosOK (d + 4) path (NewTreeNode depth path nils) := by
      rw [hdep]
      exact posOK_NewTreeNode (d + 4) path nils
    have hcheq : (node.withChild nibble (some (NewTreeNode depth path nils))).children =
        node.children.set nibble (some (NewTreeNode depth path nils)) := by
      cases node; rfl
    refine ⟨by cases node; exact ht, by cases node; rfl, by cases node; rfl, ?_, ?_⟩
    · exact posOK_setSlot hn hcheq (by cases node; rfl)
        (fun _ => ⟨by cases node; rfl, by cases node; rfl⟩)
        (by rw [hpath]; exact hPos)
    · refine ⟨NewTreeNode depth path nils, ?_, rfl, rfl, rfl, hPos⟩
      rw [hcheq, getD_set_self hflen]
  unfold extendNode
  cases hslot : node.children.getD nibble none with
  | none =>
    cases hdbq : db (depth, path) with
    | none => exact hnew
    | some st => exact hfresh st hdbq
  | some child =>
    dsimp only
    by_cases htemp : child.IsTemporary
    · rw [if_pos htemp]
      cases hdbq : db (depth, path) with
      | none => exact hnew
      | some st => exact hfresh st hdbq
    · rw [if_neg htemp]
      have hcpos : PosOK (d + 4) (p * 16 + nibble) child := hn.child hslot
      have hcf : child.temporary = false := by
        unfold TreeNode.IsTemporary at htemp
        simpa using htemp
      have hcp := hcpos.position hcf
      exact ⟨ht, rfl, rfl, hn,
        ⟨child, hslot, hcf, by rw [hcp.1, hdep], by rw [hcp.2, hpath],
         by rw [hpath] at hcpos; exact hcpos⟩⟩

theorem newVersionL_getLast (l : List VersionInfo) (vi : VersionInfo) :
    (newVersionL l vi).getLast? = some vi := by
  unfold newVersionL
  cases h : l.getLast? with
  | none => simp [List.getLast?_concat]
  | some last =>
    by_cases hv : last.Ver = vi.Ver
    · simp [hv, List.getLast?_concat]
    · simp [hv, List.getLast?_concat]

theorem set_children (n : TreeNode) (val : Bytes) (v : Nat) :
    (n.set val v).children = n.children := by cases n; rfl

theorem set_depth (n : TreeNode) (val : Bytes) (v : Nat) :
    (n.set val v).depth = n.depth := by cases n; rfl

theorem set_path (n : TreeNode) (val : Bytes) (v : Nat) :
    (n.set val v).path = n.path := by cases n; rfl

theorem set_temporary (n : TreeNode) (val : Bytes) (v : Nat) :
    (n.set val v).temporary = n.temporary := by cases n; rfl

theorem set_versions (n : TreeNode) (val : Bytes) (v : Nat) :
    (n.set val v).versions = newVersionL n.versions ⟨v, val⟩ := by cases n; rfl

theorem setChildren_children (n child : TreeNode) (nib v : Nat) :
    (n.setChildren child nib v).children = n.children.set nib (some child) := rfl

theorem setChildren_depth (n child : TreeNode) (nib v : Nat) :
    (n.setChildren child nib v).depth = n.depth := rfl

theorem setChildren_path (n child : TreeNode) (nib v : Nat) :
    (n.setChildren child nib v).path = n.path := rfl

theorem setChildren_temporary (n child : TreeNode) (nib v : Nat) :
    (n.setChildren child nib v).temporary = n.temporary := rfl

/-- What one `Set` traversal produces: a positioned copy-on-write root and a
journal batch headed by the leaf entry `((maxDepth, key), leaf)` whose last
version entry is `(newVer, val)`, followed by the interior clones, all
journaled under their own positions at depths strictly below `maxDepth`. -/
theorem setRec_spec (db : DBNodes) (nils : List Bytes) (D key v : Nat) (val : Bytes)
    (hdb : DbWF db) :
    ∀ rem i node, 4 * (i + rem) = D →
      node.temporary = false →
      PosOK (4 * i) (key >>> (D - 4 * i)) node →
      node.depth = 4 * i → node.path = key >>> (D - 4 * i) →
      ((setRec db nils D key v val rem i node).1.temporary = false ∧
       (setRec db nils D key v val rem i node).1.depth = 4 * i ∧
       (setRec db nils D key v val rem i node).1.path = key >>> (D - 4 * i) ∧
       PosOK (4 * i) (key >>> (D - 4 * i)) (setRec db nils D key v val rem i node).1 ∧
       ∃ leaf rest, (setRec db nils D key v val rem i node).2 = ((D, key), leaf) :: rest ∧
         leaf.versions.getLast? = some ⟨v, val⟩ ∧
         (∀ e ∈ rest, e.1.1 < D) ∧
         (∀ e ∈ (setRec db nils D key v val rem i node).2,
           e.1 = (e.2.depth, e.2.path) ∧ e.2.children.length = 16)) := by
  intro rem
  induction rem with
  | zero =>
    intro i node hrem htemp hPos hdep hpath
    have hD : 4 * i = D := by omega
    have hkey : key >>> (D - 4 * i) = key := by
      rw [hD, Nat.sub_self, Nat.shiftRight_zero]
    refine ⟨?_, ?_, ?_, ?_, ?_⟩
    · rw [show (setRec db nils D key v val 0 i node).1 = node.set val v from rfl,
        set_temporary]
      exact htemp
    · rw [show (setRec db nils D key v val 0 i node).1 = node.set val v from rfl,
        set_depth]
      exact hdep
    · rw [show (setRec db nils D key v val 0 i node).1 = node.set val v from rfl,
        set_path]
      exact hpath
    · exact posOK_congr hPos (set_children node val v) (set_temporary node val v)
        (fun _ => ⟨by rw [show (setRec db nils D key v val 0 i node).1 =
              node.set val v from rfl, set_depth],
          by rw [show (setRec db nils D key v val 0 i node).1 =
              node.set val v from rfl, set_path]⟩)
    · refine ⟨node.set val v, [], ?_, ?_, by simp, ?_⟩
      · rw [show (setRec db nils D key v val 0 i node).2 =
            [(((node.set val v).depth, (node.set val v).path), node.set val v)] from rfl,
          set_depth, set_path, hdep, hpath, hkey, hD]
      · rw [set_versions, newVersionL_getLast]
      · intro e he
        rw [show (setRec db nils D key v val 0 i node).2 =
            [(((node.set val v).depth, (node.set val v).path), node.set val v)] from rfl]
          at he
        simp only [List.mem_singleton] at he
        subst he
        refine ⟨rfl, ?_⟩
        rw [set_children]
        exact hPos.length
  | succ n ih =>
    intro i node hrem htemp hPos hdep hpath
    have e1 : (i + 1) * 4 = 4 * (i + 1) := by ring
    have e2 : 4 * i + 4 = 4 * (i + 1) := by ring
    have h4 : 4 * (i + 1) ≤ D := by omega
    have hstep : (key >>> (D - 4 * i)) * 16 + (key >>> (D - (i + 1) * 4)) % 16 =
        key >>> (D - (i + 1) * 4) := by
      rw [e1]
      exact path_step key D i h4
    obtain ⟨het, hed, hep, hePos, c, hslot, hct, hcd, hcp, hcPos⟩ :=
      extendNode_spec db nils node ((key >>> (D - (i + 1) * 4)) % 16)
        (key >>> (D - (i + 1) * 4)) ((i + 1) * 4) (4 * i) (key >>> (D - 4 * i))
        hdb hPos htemp (Nat.mod_lt _ (by norm_num)) hstep (by omega)
    have hchild : ((extendNode db nils node ((key >>> (D - (i + 1) * 4)) % 16)
        (key >>> (D - (i + 1) * 4)) ((i + 1) * 4)).children.getD
          ((key >>> (D - (i + 1) * 4)) % 16) none).getD
        (NewTreeNode ((i + 1) * 4) (key >>> (D - (i + 1) * 4)) nils) = c := by
      rw [hslot]
      rfl
    have hcPos' : PosOK (4 * (i + 1)) (key >>> (D - 4 * (i + 1))) c := by
      have h := hcPos
      rw [e2, e1] at h
      exact h
    have hrem' : 4 * ((i + 1) + n) = D := by omega
    have hsub := ih (i + 1) c hrem' hct hcPos'
      (by rw [hcd, e1]) (by rw [hcp, e1])
    obtain ⟨hst, hsd, hsp, hsPos, leaf, rest, hrest, hleafv, hrestd, hcoh⟩ := hsub
    set node1 := extendNode db nils node ((key >>> (D - (i + 1) * 4)) % 16)
      (key >>> (D - (i + 1) * 4)) ((i + 1) * 4) with hnode1
    set sub := setRec db nils D key v val n (i + 1) c with hsubdef
    have hout1 : (setRec db nils D key v val (n + 1) i node).1 =
        node1.setChildren sub.1 ((key >>> (D - (i + 1) * 4)) % 16) v := by
      show (setRec db nils D key v val (n + 1) i node).1 = _
      rw [setRec, hchild]
    have hout2 : (setRec db nils D key v val (n + 1) i node).2 =
        sub.2 ++ [(((node1.setChildren sub.1 ((key >>> (D - (i + 1) * 4)) % 16) v).depth,
          (node1.setChildren sub.1 ((key >>> (D - (i + 1) * 4)) % 16) v).path),
          node1.setChildren sub.1 ((key >>> (D - (i + 1) * 4)) % 16) v)] := by
      show (setRec db nils D key v val (n + 1) i node).2 = _
      rw [setRec, hchild]
    have hPosOut : PosOK (4 * i) (key >>> (D - 4 * i))
        (node1.setChildren sub.1 ((key >>> (D - (i + 1) * 4)) % 16) v) := by
      refine posOK_setSlot hePos (setChildren_children _ _ _ _)
        (setChildren_temporary _ _ _ _)
        (fun _ => ⟨setChildren_depth _ _ _ _, setChildren_path _ _ _ _⟩) ?_
      rw [hstep, e2, e1]
      exact hsPos
    refine ⟨?_, ?_, ?_, ?_, ?_⟩
    · rw [hout1, setChildren_temporary]
      exact het
    · rw [hout1, setChildren_depth, hed, hdep]
    · rw [hout1, setChildren_path, hep, hpath]
    · rw [hout1]
      exact hPosOut
    · refine ⟨leaf, rest ++ [(((node1.setChildren sub.1
          ((key >>> (D - (i + 1) * 4)) % 16) v).depth,
        (node1.setChildren sub.1 ((key >>> (D - (i + 1) * 4)) % 16) v).path),
        node1.setChildren sub.1 ((key >>> (D - (i + 1) * 4)) % 16) v)], ?_, hleafv, ?_, ?_⟩
      · rw [hout2, hrest, List.cons_append]
      · intro e he
        rw [List.mem_append] at he
        rcases he with he | he
        · exact hrestd e he
        · simp only [List.mem_singleton] at he
          subst he
          show (node1.setChildren sub.1 ((key >>> (D - (i + 1) * 4)) % 16) v).depth < D
          rw [setChildren_depth, hed, hdep]
          omega
      · intro e he
        rw [hout2, List.mem_append] at he
        rcases he with he | he
        · exact hcoh e he
        · simp only [List.mem_singleton] at he
          subst he
          refine ⟨rfl, ?_⟩
          rw [setChildren_children, List.length_set]
          exact hePos.length

theorem journalInsert_mem {j : Journal} {e x : (Nat × Nat) × TreeNode}
    (hx : x ∈ journalInsert j e) : x ∈ j ∨ x = e := by
  unfold journalInsert at hx
  by_cases hin : j.any (fun e' => e'.1 = e.1)
  · rw [if_pos hin] at hx
    obtain ⟨e', he', hfe⟩ := List.mem_map.mp hx
    by_cases hk : e'.1 = e.1
    · right
      rw [if_pos hk] at hfe
      exact hfe.symm
    · left
      rw [if_neg hk] at hfe
      rw [← hfe]
      exact he'
  · rw [if_neg hin] at hx
    rcases List.mem_append.mp hx with h | h
    · exact Or.inl h
    · exact Or.inr (List.mem_singleton.mp h)

theorem journalInsert_keys_nodup {j : Journal} {e : (Nat × Nat) × TreeNode}
    (h : (j.map (fun x => x.1)).Nodup) :
    ((journalInsert j e).map (fun x => x.1)).Nodup := by
  unfold journalInsert
  by_cases hin : j.any (fun e' => e'.1 = e.1)
  · rw [if_pos hin]
    have : ((j.map (fun e' => if e'.1 = e.1 then e else e')).map (fun x => x.1)) =
        j.map (fun x => x.1) := by
      rw [List.map_map]
      refine List.map_congr_left ?_
      intro x _
      by_cases hk : x.1 = e.1
      · simp [hk]
      · simp [hk]
    rw [this]
    exact h
  · rw [if_neg hin, List.map_append]
    rw [List.nodup_append]
    refine ⟨h, by simp, ?_⟩
    intro a ha hb
    simp only [List.map_cons, List.map_nil, List.mem_singleton] at hb
    subst hb
    obtain ⟨x, hxj, hxa⟩ := List.mem_map.mp ha
    rw [Bool.not_eq_true, List.any_eq_false] at hin
    have hx := hin x hxj
    simp only [decide_eq_true_eq] at hx
    exact hx hxa

theorem journalFind_insert_self (j : Journal) (e : (Nat × Nat) × TreeNode) :
    journalFind (journalInsert j e) e.1 = some e.2 := by
  unfold journalInsert journalFind
  by_cases hin : j.any (fun e' => e'.1 = e.1)
  · rw [if_pos hin]
    induction j with
    | nil => simp at hin
    | cons a t ih =>
      by_cases hk : a.1 = e.1
      · simp only [List.map_cons, if_pos hk, List.find?_cons]
        simp
      · simp only [List.map_cons, if_neg hk, List.find?_cons]
        have hna : ¬ (decide (a.1 = e.1) = true) := by simpa using hk
        simp only [decide_eq_true_eq, hk, if_false]
        apply ih
        rcases List.any_eq_true.mp hin with ⟨x, hx, hpx⟩
        rcases List.mem_cons.mp hx with h | h
        · rw [h] at hpx; simp only [decide_eq_true_eq] at hpx; exact absurd hpx hk
        · exact List.any_eq_true.mpr ⟨x, h, hpx⟩
  · rw [if_neg hin, List.find?_append]
    have hnone : j.find? (fun e' => decide (e'.1 = e.1)) = none := by
      rw [List.find?_eq_none]
      intro x hx
      rw [Bool.not_eq_true, List.any_eq_false] at hin
      simpa using hin x hx
    rw [hnone]
    simp

theorem journalFind_insert_other (j : Journal) (e : (Nat × Nat) × TreeNode)
    (k : Nat × Nat) (hk : k ≠ e.1) :
    journalFind (journalInsert j e) k = journalFind j k := by
  unfold journalInsert journalFind
  by_cases hin : j.any (fun e' => e'.1 = e.1)
  · rw [if_pos hin]
    clear hin
    induction j with
    | nil => rfl
    | cons a t ih =>
      by_cases hak : a.1 = e.1
      · simp only [List.map_cons, if_pos hak, List.find?_cons]
        have d1 : (decide (e.1 = k)) = false := by
          simp only [decide_eq_false_iff_not]
          exact fun h => hk h.symm
        have d2 : (decide (a.1 = k)) = false := by
          simp only [decide_eq_false_iff_not]
          rw [hak]
          exact fun h => hk h.symm
        rw [d1, d2]
        exact ih
      · simp only [List.map_cons, if_neg hak, List.find?_cons]
        cases hdec : decide (a.1 = k) with
        | true => rfl
        | false => exact ih
  · rw [if_neg hin, List.find?_append]
    have h1 : List.find? (fun e' => decide (e'.1 = k)) [e] = none := by
      simp only [List.find?_cons, List.find?_nil]
      have : ¬ (e.1 = k) := fun h => hk h.symm
      simp [this]
    rw [h1, Option.or_none]

theorem foldl_journalInsert_mem {E : Journal} :
    ∀ {j : Journal} {x : (Nat × Nat) × TreeNode},
      x ∈ E.foldl journalInsert j → x ∈ j ∨ x ∈ E := by
  induction E with
  | nil => intro j x hx; exact Or.inl hx
  | cons a t ih =>
    intro j x hx
    rcases ih hx with h | h
    · rcases journalInsert_mem h with h' | h'
      · exact Or.inl h'
      · exact Or.inr (by rw [h']; exact List.mem_cons_self _ _)
    · exact Or.inr (List.mem_cons_of_mem _ h)

theorem foldl_journalInsert_nodup {E : Journal} :
    ∀ {j : Journal}, (j.map (fun x => x.1)).Nodup →
      ((E.foldl journalInsert j).map (fun x => x.1)).Nodup := by
  induction E with
  | nil => intro j h; exact h
  | cons a t ih =>
    intro j h
    exact ih (journalInsert_keys_nodup h)

theorem foldl_journalInsert_find_other :
    ∀ (E : Journal) (j : Journal) (k : Nat × Nat), (∀ e ∈ E, e.1 ≠ k) →
      journalFind (E.foldl journalInsert j) k = journalFind j k := by
  intro E
  induction E with
  | nil => intro j k _; rfl
  | cons a t ih =>
    intro j k h
    show journalFind (t.foldl journalInsert (journalInsert j a)) k = _
    rw [ih (journalInsert j a) k (fun e he => h e (List.mem_cons_of_mem _ he))]
    exact journalFind_insert_other j a k (h a (List.mem_cons_self _ _)).symm

theorem foldl_journalInsert_find_head (k : Nat × Nat) (leaf : TreeNode)
    (rest : Journal) (j : Journal) (hne : ∀ e ∈ rest, e.1 ≠ k) :
    journalFind (((k, leaf) :: rest).foldl journalInsert j) k = some leaf := by
  show journalFind (rest.foldl journalInsert (journalInsert j (k, leaf))) k = some leaf
  rw [foldl_journalInsert_find_other rest _ k hne]
  exact journalFind_insert_self j (k, leaf)

theorem dbSet_other (db : DBNodes) (k k' : Nat × Nat) (v : StorageTreeNode)
    (h : k' ≠ k) : dbSet db k v k' = db k' := by
  unfold dbSet
  rw [if_neg h]

theorem dbSet_self (db : DBNodes) (k : Nat × Nat) (v : StorageTreeNode) :
    dbSet db k v k = some v := by
  unfold dbSet
  rw [if_pos rfl]

theorem prune_depth (n : TreeNode) (f : Nat) : (n.Prune f).depth = n.depth := by
  cases n; rfl

theorem prune_path (n : TreeNode) (f : Nat) : (n.Prune f).path = n.path := by
  cases n; rfl

theorem prune_children_length (n : TreeNode) (f : Nat) :
    (n.Prune f).children.length = n.children.length := by
  cases n
  simp [TreeNode.Prune, TreeNode.children, releaseChildren]

/-- The write position of an entry is its node's own `(depth, path)`. -/
theorem writeAction_pos (rv : Option Nat) (db : DBNodes)
    (e : (Nat × Nat) × TreeNode) (k : Nat × Nat)
    (hk : (e.2.depth, e.2.path) ≠ k) : writeAction rv db e k = db k := by
  cases rv with
  | none =>
    show dbSet db (e.2.depth, e.2.path) e.2.ToStorageTreeNode k = db k
    exact dbSet_other _ _ _ _ (Ne.symm hk)
  | some f =>
    show dbSet db ((e.2.Prune f).depth, (e.2.Prune f).path)
      (e.2.Prune f).ToStorageTreeNode k = db k
    rw [prune_depth, prune_path]
    exact dbSet_other _ _ _ _ (Ne.symm hk)

theorem dbfold_skip (rv : Option Nat) :
    ∀ (t : Journal) (db : DBNodes) (k : Nat × Nat),
      (∀ e ∈ t, e.1 ≠ k) → (∀ e ∈ t, e.1 = (e.2.depth, e.2.path)) →
      t.foldl (writeAction rv) db k = db k := by
  intro t
  induction t with
  | nil => intro db k _ _; rfl
  | cons a u ih =>
    intro db k hne hcoh
    show u.foldl (writeAction rv) (writeAction rv db a) k = db k
    rw [ih _ k (fun e he => hne e (List.mem_cons_of_mem _ he))
      (fun e he => hcoh e (List.mem_cons_of_mem _ he))]
    apply writeAction_pos
    rw [← hcoh a (List.mem_cons_self _ _)]
    exact hne a (List.mem_cons_self _ _)

/-- The record the commit batch leaves at a key: the (optionally pruned)
unique journal entry stored there. -/
theorem dbfold_find (rv : Option Nat) :
    ∀ (j : Journal) (db : DBNodes) (k : Nat × Nat) (leaf : TreeNode),
      (∀ e ∈ j, e.1 = (e.2.depth, e.2.path)) →
      (j.map (fun x => x.1)).Nodup →
      journalFind j k = some leaf →
      j.foldl (writeAction rv) db k =
        some (match rv with
              | some f => (leaf.Prune f).ToStorageTreeNode
              | none => leaf.ToStorageTreeNode) := by
  intro j
  induction j with
  | nil => intro db k leaf _ _ hf; simp [journalFind] at hf
  | cons a t ih =>
    intro db k leaf hcoh hnodup hf
    show t.foldl (writeAction rv) (writeAction rv db a) k = _
    by_cases hak : a.1 = k
    · have hleaf : leaf = a.2 := by
        unfold journalFind at hf
        rw [List.find?_cons] at hf
        have : decide (a.1 = k) = true := by simpa using hak
        rw [this] at hf
        simpa using hf.symm
      have hrest : ∀ e ∈ t, e.1 ≠ k := by
        intro e he hek
        rw [List.map_cons, List.nodup_cons] at hnodup
        exact hnodup.1 (by rw [hak, ← hek]; exact List.mem_map.mpr ⟨e, he, rfl⟩)
      rw [dbfold_skip rv t _ k hrest (fun e he => hcoh e (List.mem_cons_of_mem _ he))]
      subst hleaf
      unfold writeAction
      have hpos := hcoh a (List.mem_cons_self _ _)
      cases rv with
      | none =>
        rw [show a.1 = (a.2.depth, a.2.path) from hpos] at hak
        rw [← hak]
        exact dbSet_self db _ _
      | some f =>
        have : ((a.2.Prune f).depth, (a.2.Prune f).path) = k := by
          rw [prune_depth, prune_path, ← hpos]
          exact hak
        rw [← this]
        exact dbSet_self db _ _
    · have hf' : journalFind t k = some leaf := by
        unfold journalFind at hf ⊢
        rw [List.find?_cons] at hf
        have : decide (a.1 = k) = false := by simpa using hak
        rw [this] at hf
        exact hf
      rw [ih _ k leaf (fun e he => hcoh e (List.mem_cons_of_mem _ he))
        (by rw [List.map_cons, List.nodup_cons] at hnodup; exact hnodup.2) hf']

theorem toStorage_versions (n : TreeNode) :
    n.ToStorageTreeNode.Versions = n.versions := rfl

theorem toStorage_children_length (n : TreeNode) :
    n.ToStorageTreeNode.Children.length = n.children.length := by
  unfold TreeNode.ToStorageTreeNode
  exact List.length_map _ _

theorem reverse_find_last {l : List VersionInfo} {x : VersionInfo}
    {p : VersionInfo → Bool} (hl : l.getLast? = some x) (hp : p x = true) :
    l.reverse.find? p = some x := by
  have hne : l ≠ [] := by
    intro h0; subst h0; simp at hl
  have hx : l.getLast hne = x := by
    rw [List.getLast?_eq_getLast _ hne] at hl
    exact Option.some_injective _ hl
  have hsplit : l.dropLast ++ [x] = l := by
    rw [← hx]; exact List.dropLast_append_getLast hne
  rw [← hsplit, List.reverse_append]
  simp only [List.reverse_cons, List.reverse_nil, List.nil_append,
    List.singleton_append, List.find?_cons, hp]

/-- What a valid `Set` does: it succeeds, touches neither the version
counters nor the store, keeps the invariant, and journals the leaf under
`(maxDepth, key)` with `(version + 1, val)` as its last version entry. -/
theorem set_WF (s : SMT) (key : Nat) (val : Bytes) (h : WF s)
    (hk : key < 2 ^ s.maxDepth) :
    ∃ s1, s.Set key val = .ok s1 ∧ WF s1 ∧
      s1.version = s.version ∧ s1.recentVersion = s.recentVersion ∧
      s1.maxDepth = s.maxDepth ∧ s1.dbNodes = s.dbNodes ∧ s1.nils = s.nils ∧
      ∃ leaf, journalFind s1.journal (s.maxDepth, key) = some leaf ∧
        leaf.versions.getLast? = some ⟨s.version + 1, val⟩ := by
  obtain ⟨hrv, hd4, hdpos, hroot_t, hroot_pos, ⟨hjcoh, hjnodup⟩, hdb⟩ := h
  have hk' : ¬ (2 ^ s.maxDepth ≤ key) := not_le.mpr hk
  have hsh : key >>> s.maxDepth = 0 := by
    rw [Nat.shiftRight_eq_div_pow]
    exact Nat.div_eq_of_lt hk
  have hrem : 4 * (0 + s.maxDepth / 4) = s.maxDepth := by omega
  have hPos0 : PosOK (4 * 0) (key >>> (s.maxDepth - 4 * 0)) s.root := by
    show PosOK 0 (key >>> s.maxDepth) s.root
    rw [hsh]
    exact hroot_pos
  have hdep0 : s.root.depth = 4 * 0 := (hroot_pos.position hroot_t).1
  have hpath0 : s.root.path = key >>> (s.maxDepth - 4 * 0) := by
    show s.root.path = key >>> s.maxDepth
    rw [hsh]
    exact (hroot_pos.position hroot_t).2
  obtain ⟨hot, hod, hop, hoPos, leaf, rest, hentries, hleafv, hrestd, hcoh⟩ :=
    setRec_spec s.dbNodes s.nils s.maxDepth key (s.version + 1) val hdb
      (s.maxDepth / 4) 0 s.root hrem hroot_t hPos0 hdep0 hpath0
  refine ⟨{ s with
      root := (setRec s.dbNodes s.nils s.maxDepth key (s.version + 1) val
        (s.maxDepth / 4) 0 s.root).1,
      journal := (setRec s.dbNodes s.nils s.maxDepth key (s.version + 1) val
        (s.maxDepth / 4) 0 s.root).2.foldl journalInsert s.journal },
    ?_, ?_, rfl, rfl, rfl, rfl, rfl, ?_⟩
  · unfold SMT.Set
    rw [if_neg hk']
  · refine ⟨hrv, hd4, hdpos, hot, ?_, ⟨?_, ?_⟩, hdb⟩
    · show PosOK 0 0
        (setRec s.dbNodes s.nils s.maxDepth key (s.version + 1) val
          (s.maxDepth / 4) 0 s.root).1
      have := hoPos
      rw [show (4 : Nat) * 0 = 0 from rfl, Nat.sub_zero, hsh] at this
      exact this
    · intro e he
      rcases foldl_journalInsert_mem he with h' | h'
      · exact hjcoh e h'
      · rw [hentries] at h'
        exact hcoh e (by rw [hentries]; exact h')
    · exact foldl_journalInsert_nodup hjnodup
  · refine ⟨leaf, ?_, hleafv⟩
    show journalFind
      ((setRec s.dbNodes s.nils s.maxDepth key (s.version + 1) val
        (s.maxDepth / 4) 0 s.root).2.foldl journalInsert s.journal)
      (s.maxDepth, key) = some leaf
    rw [hentries]
    apply foldl_journalInsert_find_head
    intro e he hek
    have := hrestd e he
    rw [hek] at this
    exact lt_irrefl _ this

theorem getD_map_none {α β : Type} (g : Option α → Option β) (hg : g none = none)
    (l : List (Option α)) (i : Nat) :
    (l.map g).getD i none = g (l.getD i none) := by
  rw [List.getD_eq_getElem?_getD, List.getD_eq_getElem?_getD, List.getElem?_map]
  cases l[i]? with
  | none => simp [hg]
  | some slot => rfl

theorem withChildren_depth (n : TreeNode) (c : List (Option TreeNode)) :
    (n.withChildren c).depth = n.depth := by
  cases n; rfl

theorem withChildren_path (n : TreeNode) (c : List (Option TreeNode)) :
    (n.withChildren c).path = n.path := by
  cases n; rfl

theorem withChildren_temporary (n : TreeNode) (c : List (Option TreeNode)) :
    (n.withChildren c).temporary = n.temporary := by
  cases n; rfl

theorem withChildren_children (n : TreeNode) (c : List (Option TreeNode)) :
    (n.withChildren c).children = c := by
  cases n; rfl

theorem prune_temporary (n : TreeNode) (f : Nat) :
    (n.Prune f).temporary = n.temporary := by
  cases n; rfl

theorem releaseChildren_getD (f : Nat) (c : List (Option TreeNode)) (i : Nat)
    {ch : TreeNode} (h : (releaseChildren f c).getD i none = some ch) :
    c.getD i none = some ch := by
  rw [releaseChildren, getD_map_none _ rfl] at h
  cases hc : c.getD i none with
  | none => rw [hc] at h; cases h
  | some ch0 =>
    rw [hc] at h
    dsimp only at h
    cases hv : ch0.versions.getLast? with
    | none => rw [hv] at h; exact h
    | some last =>
      rw [hv] at h
      dsimp only at h
      by_cases hlt : last.Ver < f
      · rw [if_pos hlt] at h; cases h
      · rw [if_neg hlt] at h; exact h

theorem releaseChildren_length (f : Nat) (c : List (Option TreeNode)) :
    (releaseChildren f c).length = c.length :=
  List.length_map _ _

theorem posOK_prune {d p : Nat} {n : TreeNode} (h : PosOK d p n) (f : Nat) :
    PosOK d p (n.Prune f) := by
  refine PosOK.intro d p _ ?_ ?_ ?_
  · show ((n.Prune f)).children.length = 16
    cases n with
    | mk c i v nh nch pa de t =>
      show (releaseChildren f c).length = 16
      rw [releaseChildren_length]
      exact h.length
  · rw [prune_temporary, prune_depth, prune_path]
    exact h.position
  · intro i c hc
    apply h.child
    cases n with
    | mk c0 i0 v0 nh nch pa de t =>
      exact releaseChildren_getD f c0 i hc

theorem posOK_withRelease {d p : Nat} {n : TreeNode} (h : PosOK d p n) (f : Nat) :
    PosOK d p (n.withChildren (releaseChildren f n.children)) := by
  refine PosOK.intro d p _ ?_ ?_ ?_
  · rw [withChildren_children, releaseChildren_length]
    exact h.length
  · rw [withChildren_temporary, withChildren_depth, withChildren_path]
    exact h.position
  · intro i c hc
    rw [withChildren_children] at hc
    exact h.child (releaseChildren_getD f n.children i hc)

theorem pruneTreeAt_temporary (keys : List (Nat × Nat)) (f : Nat) (fuel : Nat)
    (n : TreeNode) :
    (pruneTreeAt keys f fuel n).temporary = n.temporary := by
  cases fuel with
  | zero => rfl
  | succ fuel =>
    show (TreeNode.withChildren _ _).temporary = n.temporary
    rw [withChildren_temporary]
    by_cases hc : keys.contains (n.depth, n.path)
    · rw [if_pos hc, prune_temporary]
    · rw [if_neg hc]

theorem posOK_pruneTreeAt (keys : List (Nat × Nat)) (f : Nat) :
    ∀ (fuel : Nat) {d p : Nat} {n : TreeNode}, PosOK d p n →
      PosOK d p (pruneTreeAt keys f fuel n)
  | 0, _, _, _, h => h
  | fuel + 1, d, p, n, h => by
    have h1 : PosOK d p
        (if keys.contains (n.depth, n.path) then n.Prune f else n) := by
      by_cases hc : keys.contains (n.depth, n.path)
      · rw [if_pos hc]; exact posOK_prune h f
      · rw [if_neg hc]; exact h
    show PosOK d p (TreeNode.withChildren _ _)
    refine PosOK.intro d p _ ?_ ?_ ?_
    · rw [withChildren_children, List.length_map]
      exact h1.length
    · rw [withChildren_temporary, withChildren_depth, withChildren_path]
      exact h1.position
    · intro i c hc
      rw [withChildren_children,
        getD_map_none (fun slot => slot.map (pruneTreeAt keys f fuel)) rfl] at hc
      cases hslot : (if keys.contains (n.depth, n.path) then n.Prune f
          else n).children.getD i none with
      | none => rw [hslot] at hc; cases hc
      | some ch =>
        rw [hslot] at hc
        have := (Option.map_eq_some'.mp hc)
        obtain ⟨ch0, h0, hrw⟩ := this
        cases h0
        rw [← hrw]
        exact posOK_pruneTreeAt keys f fuel (h1.child hslot)

theorem dbWF_writeAction (rv : Option Nat) {db : DBNodes}
    {e : (Nat × Nat) × TreeNode} (hdb : DbWF db)
    (he : e.2.children.length = 16) : DbWF (writeAction rv db e) := by
  intro k st hst
  unfold writeAction at hst
  set node := (match rv with | some f => e.2.Prune f | none => e.2) with hnode
  have hnlen : node.children.length = 16 := by
    rw [hnode]
    cases rv with
    | none => exact he
    | some f =>
      show (e.2.Prune f).children.length = 16
      rw [prune_children_length]
      exact he
  by_cases hk : k = (node.depth, node.path)
  · rw [hk, dbSet_self] at hst
    have := Option.some_injective _ hst
    rw [← this, toStorage_children_length]
    exact hnlen
  · rw [dbSet_other _ _ _ _ hk] at hst
    exact hdb k st hst

theorem dbWF_fold (rv : Option Nat) :
    ∀ (j : Journal) (db : DBNodes), DbWF db →
      (∀ e ∈ j, e.2.children.length = 16) →
      DbWF (j.foldl (writeAction rv) db)
  | [], db, hdb, _ => hdb
  | e :: j, db, hdb, hmem => by
    show DbWF (j.foldl (writeAction rv) (writeAction rv db e))
    exact dbWF_fold rv j _ (dbWF_writeAction rv hdb (hmem e (.head _)))
      (fun e' he' => hmem e' (.tail _ he'))

theorem releaseRoot_fst (v fuel : Nat) (n : TreeNode) :
    (releaseRoot v fuel n).1 = n.withChildren (releaseChildren v n.children) := rfl

theorem relFst_temporary (cond : Prop) [Decidable cond] (v fuel : Nat)
    (n : TreeNode) :
    ((if cond then releaseRoot v fuel n else (n, 0)).1).temporary =
      n.temporary := by
  by_cases h : cond
  · rw [if_pos h, releaseRoot_fst, withChildren_temporary]
  · rw [if_neg h]

theorem relFst_posOK (cond : Prop) [Decidable cond] (v fuel : Nat)
    {d p : Nat} {n : TreeNode} (h : PosOK d p n) :
    PosOK d p ((if cond then releaseRoot v fuel n else (n, 0)).1) := by
  by_cases hc : cond
  · rw [if_pos hc, releaseRoot_fst]
    exact posOK_withRelease h v
  · rw [if_neg hc]
    exact h

/-- The optional prune of the live root performed by `Commit` keeps the
root non-temporary. -/
theorem pruneOptRoot_temporary (j : List (Nat × Nat)) (rv : Option Nat)
    (fuel : Nat) (n : TreeNode) :
    (match rv with
      | some r => pruneTreeAt j r fuel n
      | none => n).temporary = n.temporary := by
  cases rv with
  | none => rfl
  | some r => exact pruneTreeAt_temporary j r fuel n

theorem pruneOptRoot_posOK (j : List (Nat × Nat)) (rv : Option Nat)
    (fuel : Nat) {d p : Nat} {n : TreeNode} (h : PosOK d p n) :
    PosOK d p (match rv with
      | some r => pruneTreeAt j r fuel n
      | none => n) := by
  cases rv with
  | none => exact h
  | some r => exact posOK_pruneTreeAt j r fuel h

/-- `Commit` preserves the reachable-state invariant (in both the error
and the success case). -/
theorem commit_WF (s : SMT) (rv : Option Nat) (h : WF s) :
    WF (s.Commit rv).2 := by
  obtain ⟨hrv, hd4, hdpos, hroot_t, hroot_pos, ⟨hjcoh, hjnodup⟩, hdb⟩ := h
  by_cases hf : (match rv with
      | some r => decide (s.version + 1 ≤ r)
      | none => false) = true
  · have hs : (s.Commit rv).2 = s := by
      simp only [SMT.Commit]
      rw [if_pos hf]
    rw [hs]
    exact ⟨hrv, hd4, hdpos, hroot_t, hroot_pos, ⟨hjcoh, hjnodup⟩, hdb⟩
  · simp only [SMT.Commit]
    rw [if_neg hf]
    dsimp only
    refine ⟨?_, hd4, hdpos, ?_, ?_, ⟨?_, ?_⟩, ?_⟩
    · show rv.getD s.recentVersion ≤ s.version + 1
      cases rv with
      | none => exact Nat.le_succ_of_le hrv
      | some r =>
        show r ≤ s.version + 1
        have : ¬ (s.version + 1 ≤ r) := by
          intro hle
          exact hf (by simp [hle])
        omega
    · exact (relFst_temporary _ _ _ _).trans
        ((pruneOptRoot_temporary _ rv _ s.root).trans hroot_t)
    · exact relFst_posOK _ _ _ (pruneOptRoot_posOK _ rv _ hroot_pos)
    · intro e he
      exact absurd he (List.not_mem_nil e)
    · exact List.nodup_nil
    · exact dbWF_fold rv s.journal s.dbNodes hdb (fun e he => (hjcoh e he).2)

theorem get_of_record (s : SMT) (key v : Nat) (e : VersionInfo)
    (hne : s.IsEmpty = false) (hk : key < 2 ^ s.maxDepth)
    (h1 : s.recentVersion ≤ v) (h2 : v ≤ s.version)
    (st : StorageTreeNode)
    (hdb : s.dbNodes (s.maxDepth, key) = some st)
    (hfind : st.Versions.reverse.find? (fun x => x.Ver ≤ v) = some e) :
    s.Get key (some v) = .ok e.Hash := by
  unfold SMT.Get
  rw [hne]
  have hk' : ¬ (2 ^ s.maxDepth ≤ key) := not_le.mpr hk
  have hold : ¬ (v < s.recentVersion) := by omega
  have hhigh : ¬ (s.version < v) := by omega
  simp only [Bool.false_eq_true, if_false, hk', Option.getD, hold, hhigh]
  rw [hdb]
  dsimp only
  rw [hfind]

theorem commit_none_fst (s : SMT) :
    (s.Commit none).1 = .ok (s.version + 1) := rfl

theorem commit_none_version (s : SMT) :
    (s.Commit none).2.version = s.version + 1 := rfl

theorem commit_none_recent (s : SMT) :
    (s.Commit none).2.recentVersion = s.recentVersion := rfl

theorem commit_none_maxDepth (s : SMT) :
    (s.Commit none).2.maxDepth = s.maxDepth := rfl

theorem commit_none_db (s : SMT) :
    (s.Commit none).2.dbNodes = s.journal.foldl (writeAction none) s.dbNodes :=
  rfl

theorem newSMT_WF {D thr : Nat} {nh : Bytes} {s : SMT}
    (h : newSMT D nh thr = .ok s) : WF s := by
  unfold newSMT at h
  by_cases hc : D = 0 ∨ D % 4 ≠ 0
  · rw [if_pos hc] at h
    cases h
  · rw [if_neg hc] at h
    injection h with hs
    push_neg at hc
    subst hs
    refine ⟨Nat.le_refl 0, hc.2, Nat.pos_of_ne_zero hc.1, rfl,
      posOK_NewTreeNode 0 0 _, ⟨?_, List.nodup_nil⟩, ?_⟩
    · intro e he
      exact absurd he (List.not_mem_nil e)
    · intro k st hst
      cases hst

/-- One public mutating call keeps the invariant. -/
theorem runOp_WF (s : SMT) (op : Op) (h : WF s) : WF (runOp s op) := by
  cases op with
  | set key val =>
    show WF (((s.Set key val).toOption).getD s)
    by_cases hk : key < 2 ^ s.maxDepth
    · obtain ⟨s1, hset, hwf1, _⟩ := set_WF s key val h hk
      rw [hset]
      exact hwf1
    · have hEq : ((s.Set key val).toOption).getD s = s := by
        unfold SMT.Set
        rw [if_pos (not_lt.mp hk)]
        rfl
      rw [hEq]
      exact h
  | commit rv => exact commit_WF s rv h

theorem runOps_WF : ∀ (ops : List Op) (s : SMT), WF s → WF (runOps s ops)
  | [], _, h => h
  | op :: ops, s, h => runOps_WF ops (runOp s op) (runOp_WF s op h)

theorem reached_WF {s : SMT} (h : Reached s) : WF s := by
  obtain ⟨D, thr, nh, s0, ops, h0, hs⟩ := h
  rw [hs]
  exact runOps_WF ops s0 (newSMT_WF h0)

/-- C2 amended.  On every reachable state, for a valid key, `Set(k, v)`
succeeds and the following `Commit` returns version `current + 1`; and
whenever the committed tree does not read back as empty (the unamended
claim fails exactly when `v` makes the root collapse to the nil hash),
`Get(k, current + 1)` returns exactly `v`. -/
theorem c2_amended (s : SMT) (hreach : Reached s) (key : Nat) (val : Bytes)
    (hk : key < 2 ^ s.maxDepth) :
    ∃ s1, s.Set key val = .ok s1 ∧
      (s1.Commit none).1 = .ok (s.version + 1) ∧
      ((s1.Commit none).2.IsEmpty = false →
        (s1.Commit none).2.Get key (some (s.version + 1)) = .ok val) := by
  have hwf : WF s := reached_WF hreach
  obtain ⟨s1, hset, hwf1, hver, hrec, hmd, hdbs, hnils, leaf, hjf, hlast⟩ :=
    set_WF s key val hwf hk
  refine ⟨s1, hset, ?_, ?_⟩
  · rw [commit_none_fst, hver]
  · intro hne
    obtain ⟨hwrec, _, _, _, _, ⟨hjcoh1, hjnodup1⟩, _⟩ := hwf1
    have h2v : (s1.Commit none).2.version = s.version + 1 := by
      rw [commit_none_version, hver]
    have h2r : (s1.Commit none).2.recentVersion = s.recentVersion := by
      rw [commit_none_recent, hrec]
    have h2m : (s1.Commit none).2.maxDepth = s.maxDepth := by
      rw [commit_none_maxDepth, hmd]
    have hread : (s1.Commit none).2.dbNodes ((s1.Commit none).2.maxDepth, key) =
        some leaf.ToStorageTreeNode := by
      rw [commit_none_db, h2m, ← hmd]
      have := dbfold_find none s1.journal s1.dbNodes (s1.maxDepth, key) leaf
        (fun e he => (hjcoh1 e he).1) hjnodup1 (by rw [hmd]; exact hjf)
      exact this
    have hfind : (leaf.ToStorageTreeNode.Versions).reverse.find?
        (fun x => x.Ver ≤ s.version + 1) =
          some ⟨s.version + 1, val⟩ := by
      rw [toStorage_versions]
      exact reverse_find_last hlast (by simp)
    have hHash := get_of_record (s1.Commit none).2 key (s.version + 1)
      ⟨s.version + 1, val⟩ hne (by rw [h2m]; exact hk)
      (by rw [h2r]; exact Nat.le_succ_of_le hwf.1)
      (by rw [h2v]) leaf.ToStorageTreeNode hread hfind
    exact hHash

theorem c2_amended_witness :
    ∃ s1, (newSMTD 8 (Bytes.raw 0) (2 ^ 61)).Set 0 (Bytes.raw 1) = .ok s1 ∧
      (s1.Commit none).1 = .ok ((newSMTD 8 (Bytes.raw 0) (2 ^ 61)).version + 1) ∧
      ((s1.Commit none).2.IsEmpty = false →
        (s1.Commit none).2.Get 0
          (some ((newSMTD 8 (Bytes.raw 0) (2 ^ 61)).version + 1)) =
          .ok (Bytes.raw 1)) :=
  c2_amended (newSMTD 8 (Bytes.raw 0) (2 ^ 61))
    ⟨8, 2 ^ 61, Bytes.raw 0, newSMTD 8 (Bytes.raw 0) (2 ^ 61), [], rfl, rfl⟩
    0 (Bytes.raw 1) (by decide)

theorem c4_prune_rule_witness :
    (isSmallestGE 2 c4List 1 ∧
     pruneVersions 2 c4List =
       (if 0 < 1 ∧ 2 < (c4List.getD 1 default).Ver
        then c4List.drop (1 - 1) else c4List.drop 1)) ∧
    (strictVers c4List ∧
     (pruneVersions 2 c4List).countP (fun e => decide (e.Ver < 2)) ≤ 1) :=
  ⟨⟨by unfold isSmallestGE c4List; decide,
    (c4_prune_rule 2 c4List).1 1 (by unfold isSmallestGE c4List; decide)⟩,
   ⟨by unfold strictVers c4List; decide,
    (c4_prune_rule 2 c4List).2 (by unfold strictVers c4List; decide)⟩⟩

theorem c5_amended_rollback_witness :
    (c5Base.IsEmpty = false ∧ c5Base.recentVersion ≤ 1 ∧ 1 ≤ c5Base.version) ∧
    ((c5Base.Rollback 1).1 = .ok () ∧
     (c5Base.Rollback 1).2.version = 1 ∧
     (c5Base.Rollback 1).2.Get 0 (some 2) = .error .VersionTooHigh ∧
     (((c5Base.Rollback 1).2.Rollback 1).2.version = (c5Base.Rollback 1).2.version ∧
      ((c5Base.Rollback 1).2.Rollback 1).2.dbNodes = (c5Base.Rollback 1).2.dbNodes ∧
      ((c5Base.Rollback 1).2.Rollback 1).2.dbLatest = (c5Base.Rollback 1).2.dbLatest ∧
      ((c5Base.Rollback 1).2.Rollback 1).2.journal = (c5Base.Rollback 1).2.journal ∧
      ((c5Base.Rollback 1).2.Rollback 1).2.root.versions =
        (c5Base.Rollback 1).2.root.versions ∧
      ((c5Base.Rollback 1).2.Rollback 1).2.RootHash = (c5Base.Rollback 1).2.RootHash ∧
      (((c5Base.Rollback 1).2.Rollback 1).2.root = (c5Base.Rollback 1).2.root ∨
       ((c5Base.Rollback 1).2.Rollback 1).2.root =
         (c5Base.Rollback 1).2.root.computeInternalHash))) := by
  have h := c5_amended_rollback c5Base 1 (by decide) (by decide) (by decide)
  exact ⟨⟨by decide, by decide, by decide⟩,
    h.1, h.2.1, h.2.2.1 0 2 (by decide) (by decide) (by decide), h.2.2.2⟩

theorem c6_amended_get_witness :
    (c7Tree.IsEmpty = false ∧ 0 < 2 ^ c7Tree.maxDepth ∧
     c7Tree.recentVersion ≤ 1 ∧ 1 ≤ c7Tree.version) ∧
    c7Tree.Get 0 (some 1) =
      (match c7Tree.dbNodes (c7Tree.maxDepth, 0) with
       | none => .error .NodeNotFound
       | some st =>
         match mostRecentLE 1 st.Versions with
         | some e => .ok e.Hash
         | none => .ok (nilHashesGet c7Tree.nils c7Tree.maxDepth)) :=
  ⟨⟨by decide, by decide, by decide, by decide⟩,
   c6_amended_get c7Tree 0 1 (by decide) (by decide) (by decide) (by decide)⟩

theorem c8_newVersion_sorted_witness :
    strictVers (newVersionL [(⟨2, Bytes.raw 1⟩ : VersionInfo)] ⟨2, Bytes.raw 2⟩) ∧
    (newVersionL [(⟨2, Bytes.raw 1⟩ : VersionInfo)] ⟨2, Bytes.raw 2⟩ =
       ([(⟨2, Bytes.raw 1⟩ : VersionInfo)]).dropLast ++ [⟨2, Bytes.raw 2⟩] ∧
     (newVersionL [(⟨2, Bytes.raw 1⟩ : VersionInfo)] ⟨2, Bytes.raw 2⟩).length =
       ([(⟨2, Bytes.raw 1⟩ : VersionInfo)]).length) := by
  have h := c8_newVersion_sorted [(⟨2, Bytes.raw 1⟩ : VersionInfo)] ⟨2, Bytes.raw 2⟩
    (by unfold strictVers; decide) (by decide)
  exact ⟨h.1, h.2 ⟨2, Bytes.raw 1⟩ (by decide) rfl⟩

theorem c9_proof_length_witness :
    ∃ p t, (newSMTD 8 (Bytes.raw 0) (2 ^ 61)).GetProof 0 = .ok (p, t) ∧
      p.length = (newSMTD 8 (Bytes.raw 0) (2 ^ 61)).maxDepth + 1 :=
  c9_proof_length (newSMTD 8 (Bytes.raw 0) (2 ^ 61)) 0
    (by decide) (by decide) (by decide)

end BasSmt
